import Mathlib

/-!
Verification development for the FacTube transcript endpoint
(`api/transcript.js`, three-strategy variant).

The JavaScript source is shallowly embedded: strings are `List Char`
(wrapped into `String` at the API boundary), JS numbers arising in the
caption parsers are exact decimals over `ℤ`/`ℕ` (every concrete value the
parsers produce has a small decimal denominator, where the source's IEEE
doubles are exact), and the network calls performed by the three retrieval
strategies are oracle parameters (`fetch`, `ytdl.getInfo`,
`YoutubeTranscript.fetchTranscript`), so that theorems quantify over all
upstream responses.  Global regex replaces (`String.replace(/.../g, ...)`)
are embedded as fuelled left-to-right scanners over `List Char`; the fuel
is always instantiated with the list length, which dominates the number of
scanning steps, and a fuel-irrelevance lemma recovers clean unfolding
equations.
-/

deriving instance DecidableEq for Except

namespace FacTube

abbrev Chars := List Char

/-- JS whitespace as used by `String.prototype.trim` (the ASCII part; the
source never feeds non-ASCII whitespace to `trim`). -/
def jsWS (c : Char) : Bool :=
  c = ' ' || c = '\t' || c = '\n' || c = '\r' || c = '\x0b' || c = '\x0c'

/-- `s.trim()` on char lists. -/
def trimL (l : Chars) : Chars :=
  ((l.dropWhile jsWS).reverse.dropWhile jsWS).reverse

/-- `haystack.includes(needle)` on char lists. -/
def containsSub (p : Chars) : Chars → Bool
  | [] => p.isEmpty
  | a :: t => p.isPrefixOf (a :: t) || containsSub p t

/-- Split at the first occurrence of `p`, returning the part before and the
part after the occurrence.  `none` when `p` does not occur. -/
def splitFirstSub (p : Chars) : Chars → Option (Chars × Chars)
  | [] => none
  | a :: t =>
    if p.isPrefixOf (a :: t) then some ([], (a :: t).drop p.length)
    else (splitFirstSub p t).map (fun pr => (a :: pr.1, pr.2))

/-- Fuelled body of `haystack.split(sep)` (JS split with a nonempty string
separator). -/
def splitOnSubF (p : Chars) : ℕ → Chars → List Chars
  | 0, l => [l]
  | f + 1, l =>
    match splitFirstSub p l with
    | none => [l]
    | some (pre, post) => pre :: splitOnSubF p f post

def splitOnSub (p l : Chars) : List Chars := splitOnSubF p l.length l

/-- Fuelled body of the global, non-overlapping, left-to-right literal
replacement `s.replace(/p/g, r)` (for a fixed pattern `p` containing no
regex metacharacters, as in `decodeHtml`).  The replacement text is spliced
in and never rescanned, exactly as in JS. -/
def replF (p r : Chars) : ℕ → Chars → Chars
  | _, [] => []
  | 0, l => l
  | f + 1, a :: t =>
    if p.isPrefixOf (a :: t) then r ++ replF p r f ((a :: t).drop p.length)
    else a :: replF p r f t

def repl (p r l : Chars) : Chars := replF p r l.length l

/-- Numeric value of a digit string, as computed by JS `Number` on an
all-digit string (exact for the values relevant here; the source never
decodes references of 2^53 or more digits worth of magnitude in any claim
considered). -/
def digitsVal (ds : Chars) : ℕ := ds.foldl (fun n c => 10 * n + (c.toNat - 48)) 0

/-- `String.fromCharCode(Number(ds))`: JS truncates the argument to a
16-bit code unit.  Lone surrogates (an invalid `Char`) fall back to `'\0'`
under `Char.ofNat`; the theorems about numeric references hypothesise a
valid scalar value, which is also the only case in which the JS result is
a genuine character. -/
def numRefChar (ds : Chars) : Char := Char.ofNat (digitsVal ds % 65536)

/-- One attempted match of `/&#(\d+);/` at the current position: at `&#`,
the regex takes the maximal digit run and requires an immediately following
`;`.  Returns the emitted character and the remainder after the match. -/
def numStep (l : Chars) : Option (Char × Chars) :=
  match l with
  | '&' :: '#' :: rest =>
    let ds := rest.takeWhile fun c => c.isDigit
    if ds.isEmpty then none
    else
      match rest.drop ds.length with
      | ';' :: after => some (numRefChar ds, after)
      | _ => none
  | _ => none

/-- Fuelled body of `s.replace(/&#(\d+);/g, (_, n) => String.fromCharCode(Number(n)))`:
on a failed match the scan resumes one character later, like the regex
engine. -/
def replNumF : ℕ → Chars → Chars
  | _, [] => []
  | 0, l => l
  | f + 1, a :: t =>
    match numStep (a :: t) with
    | some (c, after) => c :: replNumF f after
    | none => a :: replNumF f t

def replNum (l : Chars) : Chars := replNumF l.length l

/-- The five fixed entity patterns of `decodeHtml`, in replacement order. -/
def pAmp : Chars := ['&', 'a', 'm', 'p', ';']

def pLt : Chars := ['&', 'l', 't', ';']

def pGt : Chars := ['&', 'g', 't', ';']

def pQuot : Chars := ['&', 'q', 'u', 'o', 't', ';']

def pApos : Chars := ['&', '#', '3', '9', ';']

/-- `decodeHtml` from `api/transcript.js`: five sequential global literal
replacements followed by the numeric character reference replacement. -/
def decodeHtmlL (s : Chars) : Chars :=
  replNum (repl pApos ['\''] (repl pQuot ['"'] (repl pGt ['>']
    (repl pLt ['<'] (repl pAmp ['&'] s)))))

def decodeHtml (s : String) : String := String.mk (decodeHtmlL s.data)

/-! ### JS numbers as exact decimals

The caption parsers manipulate only numbers of the form `n / 10 ^ e`
(parsed from digit/dot strings) combined by `+`, `-`, `* 1000` and scaling
by 60/3600, and then round to integer milliseconds.  All these operations
are exact in IEEE doubles at the magnitudes the claims evaluate, so the
embedding computes with exact decimals.  JS `NaN` (from malformed
numerals) is modelled as 0; no claim depends on a malformed numeral. -/

structure Dec where
  num : ℤ
  exp : ℕ
deriving Repr, DecidableEq

def Dec.add (a b : Dec) : Dec :=
  let e := max a.exp b.exp
  ⟨a.num * 10 ^ (e - a.exp) + b.num * 10 ^ (e - b.exp), e⟩

def Dec.sub (a b : Dec) : Dec :=
  let e := max a.exp b.exp
  ⟨a.num * 10 ^ (e - a.exp) - b.num * 10 ^ (e - b.exp), e⟩

/-- Multiplication by a natural constant (`3600 * h`, `60 * m`). -/
def Dec.scale (k : ℕ) (a : Dec) : Dec := ⟨k * a.num, a.exp⟩

def Dec.mul1000 (a : Dec) : Dec := ⟨a.num * 1000, a.exp⟩

/-- `Math.round`: floor of `x + 1/2`. -/
def roundJS (a : Dec) : ℤ := Int.fdiv (2 * a.num + 10 ^ a.exp) (2 * 10 ^ a.exp)

/-- JS `Number(s)` for the strings fed to it by the caption parsers
(digits and dots, from `[\d:.]+` splits): digits, optionally a dot and a
digit tail; everything else (including a second dot) is `NaN`, modelled
as 0.  `Number("") = 0` as in JS. -/
def jsNumber (l : Chars) : Dec :=
  if l = [] then ⟨0, 0⟩
  else
    let ip := l.takeWhile Char.isDigit
    match l.drop ip.length with
    | [] => ⟨(digitsVal ip : ℤ), 0⟩
    | '.' :: frac =>
      if frac.all Char.isDigit then
        ⟨(digitsVal ip * 10 ^ frac.length + digitsVal frac : ℕ), frac.length⟩
      else ⟨0, 0⟩
    | _ => ⟨0, 0⟩

/-- JS `parseFloat` on a `[\d.]+` capture: longest numeric prefix. -/
def jsParseFloat (l : Chars) : Dec :=
  let ip := l.takeWhile Char.isDigit
  match l.drop ip.length with
  | '.' :: rest =>
    let fr := rest.takeWhile Char.isDigit
    if ip = [] && fr = [] then ⟨0, 0⟩
    else ⟨(digitsVal ip * 10 ^ fr.length + digitsVal fr : ℕ), fr.length⟩
  | _ => if ip = [] then ⟨0, 0⟩ else ⟨(digitsVal ip : ℤ), 0⟩

/-! ### The Cue Normalizer: WebVTT and timed-text XML parsing -/

/-- A canonical caption segment: `{ text, offset (ms), duration (ms) }`.
Both parsers produce nonnegative integer milliseconds (`Math.round` of
nonnegative seconds), matching the spec data model. -/
structure Item where
  text : String
  offset : ℕ
  duration : ℕ
deriving Repr, DecidableEq

/-- `s.split(/\r?\n/)`. -/
def splitLines : Chars → List Chars
  | [] => [[]]
  | '\r' :: '\n' :: t => [] :: splitLines t
  | '\n' :: t => [] :: splitLines t
  | a :: t =>
    match splitLines t with
    | [] => [[a]]
    | h :: r => (a :: h) :: r

/-- `texts.join(" ")` and friends. -/
def joinSep (sep : Chars) : List Chars → Chars
  | [] => []
  | [x] => x
  | x :: xs => x ++ sep ++ joinSep sep xs

/-- Fuelled body of `s.replace(/<[^>]+>/g, "")`: at `<`, the regex needs at
least one non-`>` character and then a `>`; on failure the scan resumes one
character later. -/
def stripTagsF : ℕ → Chars → Chars
  | _, [] => []
  | 0, l => l
  | f + 1, '<' :: t =>
    match splitFirstSub ['>'] t with
    | some (pre, post) =>
      if pre = [] then '<' :: stripTagsF f t else stripTagsF f post
    | none => '<' :: stripTagsF f t
  | f + 1, a :: t => a :: stripTagsF f t

def stripTags (l : Chars) : Chars := stripTagsF l.length l

def isTimeChar (c : Char) : Bool := c.isDigit || c = ':' || c = '.'

/-- One attempted match of `/([\d:.]+)\s*-->\s*([\d:.]+)/` at the current
position (greediness never needs backtracking here: the character classes
of the two groups, the whitespace and the literal `-->` are mutually
exclusive). -/
def tryArrowAt (s : Chars) : Option (Chars × Chars) :=
  let r1 := s.takeWhile isTimeChar
  if r1 = [] then none
  else
    let s2 := (s.drop r1.length).dropWhile jsWS
    if ['-', '-', '>'].isPrefixOf s2 then
      let s3 := (s2.drop 3).dropWhile jsWS
      let r2 := s3.takeWhile isTimeChar
      if r2 = [] then none else some (r1, r2)
    else none

/-- First match of the timestamp-line regex, scanning left to right. -/
def matchArrowL : Chars → Option (Chars × Chars)
  | [] => none
  | a :: t =>
    match tryArrowAt (a :: t) with
    | some res => some res
    | none => matchArrowL t

/-- `parseTime` of the source (also `parseVttTime`): split on `:`, convert
parts with `Number`, weight positionally; any shape other than 2 or 3
parts leaves all components at 0. -/
def parseTime (t : Chars) : Dec :=
  match (splitOnSub [':'] t).map jsNumber with
  | [h, m, s] => Dec.add (Dec.add (Dec.scale 3600 h) (Dec.scale 60 m)) s
  | [m, s] => Dec.add (Dec.scale 60 m) s
  | _ => ⟨0, 0⟩

/-- `Math.round(start * 1000)`, as a natural number (the parsers only ever
round nonnegative values). -/
def offsetOf (start : Dec) : ℕ := (roundJS (Dec.mul1000 start)).toNat

/-- `Math.max(0, Math.round((end - start) * 1000))`. -/
def durOf (start e : Dec) : ℕ := (max 0 (roundJS (Dec.mul1000 (Dec.sub e start)))).toNat

/-- Fuelled cue-block loop of `parseVtt`: skip to a line containing `-->`,
match the timestamp line, collect the following non-blank lines as the cue
text, strip markup, decode entities, and keep the cue when the trimmed
text is non-empty. -/
def parseVttF : ℕ → List Chars → List Item
  | _, [] => []
  | 0, _ => []
  | f + 1, l :: ls =>
    if containsSub ['-', '-', '>'] l then
      match matchArrowL (trimL l) with
      | none => parseVttF f ls
      | some (t1, t2) =>
        let start := parseTime t1
        let e := parseTime t2
        let texts := ls.takeWhile fun x => ¬ trimL x = []
        let rest := (ls.drop texts.length).dropWhile fun x => trimL x = []
        let txt := decodeHtmlL (stripTags (joinSep [' '] texts))
        if ¬ trimL txt = [] then
          ⟨String.mk txt, offsetOf start, durOf start e⟩ :: parseVttF f rest
        else parseVttF f rest
    else parseVttF f ls

def parseVtt (vtt : String) : List Item :=
  parseVttF (splitLines vtt.data).length (splitLines vtt.data)

/-- `start="([\d.]+)"` / `dur="([\d.]+)"` inside the attribute region of a
`<text ...>` element: a nonempty digit/dot run immediately closed by a
quote. -/
def parseQuotedNum (l : Chars) : Option (Chars × Chars) :=
  let r := l.takeWhile fun c => c.isDigit || c = '.'
  if r = [] then none
  else
    match l.drop r.length with
    | '"' :: rest => some (r, rest)
    | _ => none

/-- Extraction of the `start`/`dur` attributes from the region between
`<text` and the closing `>`.  The first `start="` and the first following
`dur="` occurrences are used; the regex engine would in addition backtrack
to later occurrences inside a malformed region, a case no well-formed
timedtext payload produces and on which no claim depends. -/
def parseStartDur (attrs : Chars) : Option (Dec × Dec) :=
  match splitFirstSub ['s', 't', 'a', 'r', 't', '=', '"'] attrs with
  | none => none
  | some (_, a1) =>
    match parseQuotedNum a1 with
    | none => none
    | some (r1, a2) =>
      match splitFirstSub ['d', 'u', 'r', '=', '"'] a2 with
      | none => none
      | some (_, a3) =>
        match parseQuotedNum a3 with
        | none => none
        | some (r2, _) => some (jsParseFloat r1, jsParseFloat r2)

/-- Fuelled scan of
`/<text[^>]*start="([\d.]+)"[^>]*dur="([\d.]+)"[^>]*>([\s\S]*?)<\/text>/g`:
find `<text`, read the attribute region up to `>`, extract both numeric
attributes, take the inner content lazily up to `</text>`; on a failed
attempt resume after the `<text` occurrence, as the regex engine does. -/
def parseTimedtextXmlF : ℕ → Chars → List Item
  | 0, _ => []
  | f + 1, l =>
    match splitFirstSub ['<', 't', 'e', 'x', 't'] l with
    | none => []
    | some (_, afterTag) =>
      match splitFirstSub ['>'] afterTag with
      | none => []
      | some (attrs, afterGt) =>
        match parseStartDur attrs with
        | none => parseTimedtextXmlF f afterTag
        | some (st, du) =>
          match splitFirstSub ['<', '/', 't', 'e', 'x', 't', '>'] afterGt with
          | none => parseTimedtextXmlF f afterTag
          | some (inner, rest) =>
            let txt := decodeHtmlL (stripTags inner)
            if ¬ trimL txt = [] then
              ⟨String.mk txt, offsetOf st, (roundJS (Dec.mul1000 du)).toNat⟩ ::
                parseTimedtextXmlF f rest
            else parseTimedtextXmlF f rest

def parseTimedtextXml (xml : String) : List Item :=
  parseTimedtextXmlF xml.data.length xml.data

/-! ### The Format Renderer -/

def padStartC (n : ℕ) (c : Char) (s : Chars) : Chars :=
  List.replicate (n - s.length) c ++ s

def natChars (n : ℕ) : Chars := (toString n).data

/-- The timestamp formatter of `toSrt`.  The source computes on seconds as
doubles: `h = floor(t/3600)`, `m = floor((t%3600)/60)`, `s = floor(t%60)`,
`ms = floor((t - floor t) * 1000)`.  All `t` fed to it are (mathematically)
integer multiples of 1/1000, and the embedding evaluates the same four
fields by exact integer arithmetic on the scaled value `ms = 1000 * t`.
(For a handful of large offsets the double rounding of `offset/1000` can
push the printed millisecond field by one; every claim here evaluates the
formatter only at exactly representable values.) -/
def fmtMs (ms : ℕ) : Chars :=
  padStartC 2 '0' (natChars (ms / 3600000)) ++ [':'] ++
    padStartC 2 '0' (natChars (ms % 3600000 / 60000)) ++ [':'] ++
    padStartC 2 '0' (natChars (ms % 60000 / 1000)) ++ [','] ++
    padStartC 3 '0' (natChars (ms % 1000))

/-- One SRT block: the source computes `start = it.offset / 1000` seconds
and `end = start + (it.duration ?? 0)` seconds — the millisecond duration
is added to a second quantity without rescaling — so the scaled end value
is `offset + 1000 * duration` milliseconds. -/
def srtBlock (i : ℕ) (it : Item) : Chars :=
  natChars (i + 1) ++ ['\n'] ++ fmtMs it.offset ++
    [' ', '-', '-', '>', ' '] ++ fmtMs (it.offset + 1000 * it.duration) ++
    ['\n'] ++ it.text.data ++ ['\n']

def srtBlocks : ℕ → List Item → List Chars
  | _, [] => []
  | i, it :: rest => srtBlock i it :: srtBlocks (i + 1) rest

/-- `toSrt` from the source: numbered blocks joined by a blank line. -/
def toSrt (items : List Item) : String :=
  String.mk (joinSep ['\n'] (srtBlocks 0 items))

/-- `transcript.map(t => t.text).join("\n")`. -/
def toPlainText (items : List Item) : String :=
  String.mk (joinSep ['\n'] (items.map fun it => it.text.data))

/-! ### The Identifier Resolver -/

def isIdChar (c : Char) : Bool := c.isAlphanum || c = '-' || c = '_'

/-- The bare-token test `/^[A-Za-z0-9_-]{10,}$/`. -/
def validId (l : Chars) : Bool := decide (l.length ≥ 10) && l.all isIdChar

structure UrlRec where
  host : Chars
  path : Chars
  query : List (Chars × Chars)
deriving Repr, DecidableEq

def isSchemeTailChar (c : Char) : Bool :=
  c.isAlphanum || c = '+' || c = '-' || c = '.'

def validScheme : Chars → Bool
  | [] => false
  | a :: t => a.isAlpha && t.all isSchemeTailChar

/-- Query-string parsing: split on `&`, each piece at its first `=`.
`URLSearchParams` percent and plus decoding is not modelled; no claim
evaluates a query containing escapes. -/
def parseQuery (q : Chars) : List (Chars × Chars) :=
  (splitOnSub ['&'] q).map fun piece =>
    match splitFirstSub ['='] piece with
    | none => (piece, [])
    | some (k, v) => (k, v)

/-- The authority region extends to the first `/`, `?` or `#`. -/
def notHostEnd (c : Char) : Bool := ¬ (c = '/' || c = '?' || c = '#')

/-- The hostname part of the authority stops at the port separator. -/
def notColon (c : Char) : Bool := ¬ c = ':'

/-- The pathname extends to the first `?` or `#`. -/
def notQueryEnd (c : Char) : Bool := ¬ (c = '?' || c = '#')

/-- The query extends to the first `#`. -/
def notHash (c : Char) : Bool := ¬ c = '#'

/-- `new URL(input)` restricted to hierarchical `scheme://host...` URLs:
hostname (lowercased, port stripped), `/`-prefixed pathname, parsed query.
IDNA, userinfo, path normalization and percent-decoding are not modelled;
parse failure (`none`) models the constructor throwing.  A URL whose
scheme carries no `//` authority (e.g. `mailto:`) parses in JS with an
empty hostname and therefore fails both host tests of `extractVideoId`
exactly as `none` does here. -/
def parseURL (s : Chars) : Option UrlRec :=
  match splitFirstSub [':', '/', '/'] s with
  | none => none
  | some (scheme, rest) =>
    if ¬ validScheme scheme then none
    else
      let hostport := rest.takeWhile notHostEnd
      let after := rest.drop hostport.length
      let host := (hostport.takeWhile notColon).map Char.toLower
      if host = [] || host.any fun c => c = ' ' then none
      else
        let rawPath := after.takeWhile notQueryEnd
        let path := if rawPath = [] then ['/'] else rawPath
        let query :=
          match after.drop rawPath.length with
          | '?' :: qs => parseQuery (qs.takeWhile notHash)
          | _ => []
        some ⟨host, path, query⟩

/-- `searchParams.get(k)`: value of the first pair with the given key. -/
def getParam (q : List (Chars × Chars)) (k : Chars) : Option Chars :=
  (q.find? fun pr => pr.1 == k).map Prod.snd

/-- The path test `/^\/(shorts|live|embed)\/([A-Za-z0-9_-]{10,})/`:
one of the three prefixes followed by a maximal token run of length at
least 10. -/
def pathShapeId (path : Chars) : Option Chars :=
  let tryPre := fun (pre : Chars) =>
    if pre.isPrefixOf path then
      let run := (path.drop pre.length).takeWhile isIdChar
      if run.length ≥ 10 then some run else none
    else none
  match tryPre ['/', 's', 'h', 'o', 'r', 't', 's', '/'] with
  | some r => some r
  | none =>
    match tryPre ['/', 'l', 'i', 'v', 'e', '/'] with
    | some r => some r
    | none => tryPre ['/', 'e', 'm', 'b', 'e', 'd', '/']

def errNoId : String := "Could not extract a YouTube video ID from input."

/-- `extractVideoId` from the source: bare token test, then URL parsing
with the short-link host check (`hostname.includes("youtu.be")`, returning
`pathname.slice(1)` unvalidated), then the canonical host check with the
`v` query parameter (returned unvalidated when truthy) and the
shorts/live/embed path shapes. -/
def extractVideoIdL (input : Chars) : Except String Chars :=
  if validId input then .ok (trimL input)
  else
    match parseURL input with
    | some u =>
      if containsSub ['y', 'o', 'u', 't', 'u', '.', 'b', 'e'] u.host then
        .ok (u.path.drop 1)
      else if containsSub ['y', 'o', 'u', 't', 'u', 'b', 'e', '.', 'c', 'o', 'm'] u.host then
        match getParam u.query ['v'] with
        | some v =>
          if ¬ v = [] then .ok v
          else
            match pathShapeId u.path with
            | some r => .ok r
            | none => .error errNoId
        | none =>
          match pathShapeId u.path with
          | some r => .ok r
          | none => .error errNoId
      else .error errNoId
    | none => .error errNoId

def extractVideoId (input : String) : Except String String :=
  (extractVideoIdL input.data).map String.mk

/-! ### Retrieval strategies, with the upstream calls as oracles -/

/-- `fetch(url, { headers: BROWSER_HEADERS })` followed by `res.text()`:
either throws (transport failure) or yields `(res.status, body)`.  The
fixed browser-like header set is a constant of the source and does not
vary across calls, so it is not a parameter of the oracle. -/
abbrev Fetch := String → Except String (ℕ × String)

/-- `res.ok`. -/
def statusOk (st : ℕ) : Bool := decide (200 ≤ st) && decide (st ≤ 299)

/-- `/WEBVTT/i.test(body)`. -/
def testWebVtt (body : String) : Bool :=
  containsSub ['W', 'E', 'B', 'V', 'T', 'T'] (body.data.map Char.toUpper)

def isWordChar (c : Char) : Bool := c.isAlphanum || c = '_'

/-- An occurrence of `w` not followed by a word character (the `\b` after
a word-character pattern). -/
def testAngleWord (w : Chars) : Chars → Bool
  | [] => false
  | a :: t =>
    (w.isPrefixOf (a :: t) &&
      match (a :: t).drop w.length with
      | [] => true
      | c :: _ => ¬ isWordChar c) ||
    testAngleWord w t

/-- `/<(timedtext|text)\b/i.test(body)`. -/
def testTimedOrText (body : String) : Bool :=
  let lb := body.data.map Char.toLower
  testAngleWord ['<', 't', 'i', 'm', 'e', 'd', 't', 'e', 'x', 't'] lb ||
    testAngleWord ['<', 't', 'e', 'x', 't'] lb

/-- `/<(transcript|timedtext|text)\b/i.test(body)`. -/
def testTranscriptEtc (body : String) : Bool :=
  let lb := body.data.map Char.toLower
  testAngleWord ['<', 't', 'r', 'a', 'n', 's', 'c', 'r', 'i', 'p', 't'] lb ||
    testAngleWord ['<', 't', 'i', 'm', 'e', 'd', 't', 'e', 'x', 't'] lb ||
    testAngleWord ['<', 't', 'e', 'x', 't'] lb

/-- `YoutubeTranscript.fetchTranscript(videoId, opts)`: the oracle takes
the video id, the (0-based) index of the call within the strategy — so
that repeated calls with identical arguments may observe different
upstream behaviour — and the language option (`none` encodes the absent
`lang` field), and either throws or returns the structured cue list. -/
abbrev FetchTr := String → ℕ → Option String → Except String (List Item)

/-- The option list of Strategy 1: `undefined`, the caller preference when
truthy, then the fixed English variants (`filter(x => x !== null)` keeps
`undefined`). -/
def s1Options (pref : Option String) : List (Option String) :=
  [none] ++
    (match pref with
     | some p => if p = "" then [] else [some p]
     | none => []) ++
    [some "en", some "en-US", some "en-GB"]

def s1Label : Option String → String
  | none => "ytTranscript:any"
  | some l => "ytTranscript:lang=" ++ l

/-- The option loop of Strategy 1: log the attempt, call the library,
return the first non-empty cue list, remember the last thrown error. -/
def s1Loop (ftr : FetchTr) (videoId : String) :
    List (Option String) → ℕ → Option String → List String →
    List String × Except String (List Item)
  | [], _, lastErr, att =>
    (att, .error (lastErr.getD "No transcript via youtube-transcript"))
  | o :: rest, i, lastErr, att =>
    let att := att ++ [s1Label o]
    match ftr videoId i o with
    | .ok tr =>
      if ¬ tr = [] then (att, .ok tr) else s1Loop ftr videoId rest (i + 1) lastErr att
    | .error e => s1Loop ftr videoId rest (i + 1) (some e) att

def tryYoutubeTranscript (ftr : FetchTr) (videoId : String) (pref : Option String)
    (att : List String) : List String × Except String (List Item) :=
  s1Loop ftr videoId (s1Options pref) 0 none att

/-- A caption track descriptor from the `ytdl-core` player response.  A
missing field is modelled as `""`, which the source's `norm`/`||` chains
treat identically to `undefined`. -/
structure Track where
  languageCode : String
  language : String
  baseUrl : String
deriving Repr, DecidableEq

/-- `ytdl.getInfo(url)` reduced to the caption track list the source
extracts from the player response (optional chaining defaulting to `[]`);
may throw. -/
abbrev GetInfo := String → Except String (List Track)

def lowerS (s : String) : String := String.mk (s.data.map Char.toLower)

def startsWithS (s pre : String) : Bool := pre.data.isPrefixOf s.data

/-- The track selection appearing verbatim in Strategies 2 and 3
(embedded once, parametrised by the language-code projection):
`(preferredLang && ts.find(prefix-match)) || ts.find(en-match) || ts[0]`. -/
def chooseBy {α : Type} (code : α → String) (pref : Option String)
    (ts : List α) : Option α :=
  (match pref with
   | some p =>
     if p = "" then none
     else ts.find? fun t => startsWithS (lowerS (code t)) (lowerS p)
   | none => none).orElse fun _ =>
    (ts.find? fun t => startsWithS (lowerS (code t)) "en").orElse fun _ => ts.head?

/-- `track.languageCode || track.language || "unknown"`. -/
def trackLabel (t : Track) : String :=
  if ¬ t.languageCode = "" then t.languageCode
  else if ¬ t.language = "" then t.language
  else "unknown"

/-- The candidate URL list of Strategy 2: the base delivery URL, then the
four format-suffix variants. -/
def candidatesOf (base : String) : List String :=
  let sep := if containsSub ['?'] base.data then "&" else "?"
  [base, base ++ sep ++ "fmt=srv3", base ++ sep ++ "fmt=vtt",
    base ++ sep ++ "fmt=ttml", base ++ sep ++ "fmt=srv1"]

/-- The per-candidate log label:
`timedUrl.includes("fmt=") ? timedUrl.split("fmt=").pop() : "base"`. -/
def getPiece (u : String) : String :=
  if containsSub ['f', 'm', 't', '='] u.data then
    String.mk ((splitOnSub ['f', 'm', 't', '='] u.data).getLastD [])
  else "base"

def statusStr : Option ℕ → String
  | none => "n/a"
  | some n => toString n

/-- The candidate loop of Strategy 2: each candidate is logged and fetched
inside a per-candidate `try`; a thrown fetch is swallowed, a non-success
status updates `lastStatus` and advances, and a body recognised as WebVTT
or timed-text XML is accepted only when it parses to a non-empty list. -/
def s2Loop (fetchO : Fetch) : List String → Option ℕ → List String →
    List String × Except String (List Item)
  | [], lastStatus, att =>
    (att, .error ("Caption download failed (last HTTP " ++ statusStr lastStatus ++ ")"))
  | u :: rest, lastStatus, att =>
    let att := att ++ ["ytdl:get=" ++ getPiece u]
    match fetchO u with
    | .error _ => s2Loop fetchO rest lastStatus att
    | .ok (st, body) =>
      if ¬ statusOk st then s2Loop fetchO rest (some st) att
      else if testWebVtt body && ¬ parseVtt body = [] then (att, .ok (parseVtt body))
      else if testTimedOrText body && ¬ parseTimedtextXml body = [] then
        (att, .ok (parseTimedtextXml body))
      else s2Loop fetchO rest (some st) att

def tryYtdl (ginfo : GetInfo) (fetchO : Fetch) (videoId : String)
    (pref : Option String) (att : List String) :
    List String × Except String (List Item) :=
  let att := att ++ ["ytdl:info"]
  match ginfo ("https://www.youtube.com/watch?v=" ++ videoId) with
  | .error e => (att, .error e)
  | .ok tracks =>
    if tracks = [] then (att, .error "No caption tracks available.")
    else
      match chooseBy Track.languageCode pref tracks with
      | none => (att, .error "unreachable: chooseBy is total on nonempty lists")
      | some track =>
        let att := att ++ ["ytdl:track=" ++ trackLabel track]
        s2Loop fetchO (candidatesOf track.baseUrl) none att

/-- A `<track .../>` descriptor from the timedtext listing; `""` models a
missing attribute (a missing `lang_code` is `undefined` in the source,
which every subsequent use — `norm`, prefix tests — treats as `""`; only
the display label would print `undefined` instead, which no claim
inspects). -/
structure TrackT where
  lang_code : String
  name : String
  kind : String
deriving Repr, DecidableEq

/-- One match attempt of `/(\w+)="([^"]*)"/g` per position. -/
def attrPairsF : ℕ → Chars → List (Chars × Chars)
  | 0, _ => []
  | _, [] => []
  | f + 1, a :: t =>
    if isWordChar a then
      let w := (a :: t).takeWhile isWordChar
      match (a :: t).drop w.length with
      | '=' :: '"' :: rest =>
        let v := rest.takeWhile fun c => ¬ c = '"'
        match rest.drop v.length with
        | '"' :: rest2 => (w, v) :: attrPairsF f rest2
        | _ => attrPairsF f t
      | _ => attrPairsF f t
    else attrPairsF f t

/-- `attrs[k]` after sequential assignment: the last occurrence wins. -/
def getAttrD (pairs : List (Chars × Chars)) (k : Chars) (d : String) : String :=
  match (pairs.filter fun pr => pr.1 == k).getLast? with
  | some pr => String.mk pr.2
  | none => d

def mkTrackT (attrs : Chars) : TrackT :=
  let pairs := attrPairsF attrs.length attrs
  ⟨getAttrD pairs ['l', 'a', 'n', 'g', '_', 'c', 'o', 'd', 'e'] "",
    getAttrD pairs ['n', 'a', 'm', 'e'] "",
    getAttrD pairs ['k', 'i', 'n', 'd'] ""⟩

/-- The scan of `/<track\b([^>]+)\/>/g`: `<track` at a word boundary, a
nonempty non-`>` region closed by `/>`. -/
def trackScanF : ℕ → Chars → List TrackT
  | 0, _ => []
  | f + 1, l =>
    match splitFirstSub ['<', 't', 'r', 'a', 'c', 'k'] l with
    | none => []
    | some (_, afterTag) =>
      match splitFirstSub ['>'] afterTag with
      | none => []
      | some (region, afterGt) =>
        if (match afterTag with
            | [] => false
            | c :: _ => ¬ isWordChar c) &&
            decide (2 ≤ region.length) && region.getLastD ' ' = '/' then
          mkTrackT (region.take (region.length - 1)) :: trackScanF f afterGt
        else trackScanF f afterTag

/-- The four listing URL variants of Strategy 3, in order. -/
def listUrls (videoId : String) : List String :=
  let base := "https://www.youtube.com/api/timedtext?type=list&v=" ++ videoId ++ "&tlangs=1"
  [base, base ++ "&caps=asr", base ++ "&hl=en", base ++ "&caps=asr&hl=en"]

def listLabel (url : String) : String :=
  "timedtext:list " ++
    (if containsSub ['c', 'a', 'p', 's', '=', 'a', 's', 'r'] url.data then "asr" else "base") ++
    (if containsSub ['&', 'h', 'l', '='] url.data then "+hl" else "")

/-- The listing loop of `listTimedtextTracks`: the fetch is not wrapped in
a `try`, so a thrown fetch propagates and fails the whole strategy; an
empty parse advances to the next variant; no variant yielding tracks
returns `[]`. -/
def listTracksLoop (fetchO : Fetch) : List String → List String →
    List String × Except String (List TrackT)
  | [], att => (att, .ok [])
  | u :: rest, att =>
    let att := att ++ [listLabel u]
    match fetchO u with
    | .error e => (att, .error e)
    | .ok (st, body) =>
      if ¬ statusOk st then listTracksLoop fetchO rest att
      else
        let tracks := trackScanF body.data.length body.data
        if ¬ tracks = [] then (att, .ok tracks)
        else listTracksLoop fetchO rest att

def listTimedtextTracks (fetchO : Fetch) (videoId : String) (att : List String) :
    List String × Except String (List TrackT) :=
  listTracksLoop fetchO (listUrls videoId) att

/-- `encodeURIComponent`, modelled as the identity: candidate URLs are
opaque keys of the `fetch` oracle, and every concrete evaluation of the
claims uses language codes and names over `[A-Za-z0-9-]`, on which the JS
function is also the identity. -/
def encodeURIComponent (s : String) : String := s

def chooseLabel (chosen : TrackT) : String :=
  "timedtext:choose lang=" ++ chosen.lang_code ++ ", kind=" ++
    (if chosen.kind = "" then "manual" else chosen.kind) ++
    (if chosen.name = "" then "" else ", name=" ++ chosen.name)

def buildTimedtextUrl (videoId : String) (chosen : TrackT) (fmtVtt : Bool) : String :=
  "https://www.youtube.com/api/timedtext?v=" ++ videoId ++ "&lang=" ++
    encodeURIComponent chosen.lang_code ++
    (if chosen.kind = "asr" then "&kind=asr" else "") ++
    (if ¬ chosen.name = "" then "&name=" ++ encodeURIComponent chosen.name else "") ++
    (if fmtVtt then "&fmt=vtt" else "")

/-- The two-candidate fetch loop of Strategy 3 (`[true, false]` = VTT
first, then XML).  The fetch is not wrapped in a `try`: a throw fails the
strategy. -/
def s3FetchLoop (fetchO : Fetch) (videoId : String) (chosen : TrackT) :
    List Bool → List String → List String × Except String (List Item)
  | [], att => (att, .error "timedtext track fetch returned no cues.")
  | withVtt :: rest, att =>
    let att := att ++ ["timedtext:get " ++ if withVtt then "vtt" else "xml"]
    match fetchO (buildTimedtextUrl videoId chosen withVtt) with
    | .error e => (att, .error e)
    | .ok (st, body) =>
      if ¬ statusOk st then s3FetchLoop fetchO videoId chosen rest att
      else if withVtt && testWebVtt body && ¬ parseVtt body = [] then
        (att, .ok (parseVtt body))
      else if ¬ withVtt && testTranscriptEtc body && ¬ parseTimedtextXml body = [] then
        (att, .ok (parseTimedtextXml body))
      else s3FetchLoop fetchO videoId chosen rest att

def tryTimedtextEndpoint (fetchO : Fetch) (videoId : String) (pref : Option String)
    (att : List String) : List String × Except String (List Item) :=
  match listTimedtextTracks fetchO videoId att with
  | (att1, .error e) => (att1, .error e)
  | (att1, .ok tracks) =>
    if tracks = [] then (att1, .error "No tracks in timedtext list.")
    else
      match chooseBy TrackT.lang_code pref tracks with
      | none => (att1, .error "unreachable: chooseBy is total on nonempty lists")
      | some chosen =>
        let att1 := att1 ++ [chooseLabel chosen]
        s3FetchLoop fetchO videoId chosen [true, false] att1

/-! ### The Fallback Orchestrator (handler core) -/

structure SuccessPayload where
  video_id : String
  tried_order : List String
  segments : List Item
  plain_text : String
  srt : String
deriving Repr, DecidableEq

/-- The two response shapes the handler can produce past the request
plumbing: the 200 JSON payload, or the 400 `{ error }` payload, which
carries only the message string. -/
inductive Response
  | ok : SuccessPayload → Response
  | err : String → Response
deriving Repr, DecidableEq

/-- The handler core after the CORS/method/body plumbing (out of scope per
the spec): resolve the identifier, run the three strategies in
first-success order threading one attempts list through them, render the
winning sequence; any error escaping the cascade is returned as
`{ error: err.message || "Failed to fetch transcript." }`. -/
def handler (ftr : FetchTr) (ginfo : GetInfo) (fetchO : Fetch)
    (url : String) (lang : Option String) : Response :=
  let errOf := fun (e : String) => if e = "" then "Failed to fetch transcript." else e
  match extractVideoId url with
  | .error e => .err (errOf e)
  | .ok id =>
    match tryYoutubeTranscript ftr id lang [] with
    | (att1, .ok tr) => .ok ⟨id, att1, tr, toPlainText tr, toSrt tr⟩
    | (att1, .error _) =>
      match tryYtdl ginfo fetchO id lang att1 with
      | (att2, .ok tr) => .ok ⟨id, att2, tr, toPlainText tr, toSrt tr⟩
      | (att2, .error _) =>
        match tryTimedtextEndpoint fetchO id lang att2 with
        | (att3, .ok tr) => .ok ⟨id, att3, tr, toPlainText tr, toSrt tr⟩
        | (_, .error e) => .err (errOf e)

/-! ### Evaluation-level predicates and concrete demonstration oracles -/

/-- Chronological ordering by `offsetMs` over consecutive segments. -/
def chronological (l : List Item) : Prop :=
  List.Chain' (fun a b => a.offset ≤ b.offset) l

instance (l : List Item) : Decidable (chronological l) :=
  inferInstanceAs (Decidable (List.Chain' _ l))

/-- The sequence is the untouched parser output for a body delivered by
some candidate URL: payload order, no reordering, no further
validation. -/
def comesFromParser (fetchO : Fetch) (tr : List Item) : Prop :=
  ∃ u st body, fetchO u = .ok (st, body) ∧
    (tr = parseVtt body ∨ tr = parseTimedtextXml body)

/-- An attempt outcome that does not stop Strategy 1's loop: a throw, or a
structurally empty cue list. -/
def failOrEmpty (r : Except String (List Item)) : Prop :=
  match r with
  | .error _ => True
  | .ok l => l = []

instance (r : Except String (List Item)) : Decidable (failOrEmpty r) :=
  match r with
  | .error _ => isTrue trivial
  | .ok l => inferInstanceAs (Decidable (l = []))

/-- An out-of-order (but otherwise well-formed) WebVTT payload. -/
def demoVtt : String :=
  "WEBVTT\n\n00:00:05.000 --> 00:00:06.000\nB\n\n00:00:01.000 --> 00:00:02.000\nA\n"

def demoFetchTrFail : FetchTr := fun _ _ _ => .error "boom"

def demoFetchTrOk : FetchTr := fun _ _ _ => .ok [⟨"B", 5000, 1000⟩]

def demoFetchTrThird : FetchTr := fun _ i _ =>
  if i < 2 then .error "x" else .ok [⟨"B", 5000, 1000⟩]

def demoGInfo : GetInfo := fun _ => .ok [⟨"en", "", "http://x"⟩]

def demoFetch : Fetch := fun u =>
  if u = "http://x" then .ok (200, demoVtt) else .error "nope"

def cxGInfoFail : GetInfo := fun _ => .error "info down"

def cxFetch404 : Fetch := fun _ => .ok (404, "")

def demoTracks : List Track :=
  [⟨"en-US", "", ""⟩, ⟨"en-GB", "", ""⟩, ⟨"fr", "", ""⟩]

/-! ### Elementary facts about the fuelled replacement scanner -/

theorem pfx_of_isPre {p l : Chars} (h : p.isPrefixOf l) : p <+: l :=
  List.isPrefixOf_iff_prefix.mp h

theorem isPre_of_pfx {p l : Chars} (h : p <+: l) : p.isPrefixOf l :=
  List.isPrefixOf_iff_prefix.mpr h

theorem eq_append_drop_of_pfx {p l : Chars} (h : p <+: l) :
    l = p ++ l.drop p.length := by
  conv_lhs => rw [← List.take_append_drop p.length l]
  rw [← List.prefix_iff_eq_take.mp h]

theorem replF_fuel (p r : Chars) (hp : p ≠ []) :
    ∀ f g l, l.length ≤ f → l.length ≤ g → replF p r f l = replF p r g l := by
  intro f
  induction f with
  | zero =>
    intro g l hf _
    have : l = [] := List.length_eq_zero.mp (Nat.le_zero.mp hf)
    subst this
    cases g <;> rfl
  | succ f ih =>
    intro g l hf hg
    cases l with
    | nil => cases g <;> rfl
    | cons a t =>
      cases g with
      | zero => simp at hg
      | succ g =>
        have hp1 : 1 ≤ p.length := List.length_pos.mpr hp
        show (if p.isPrefixOf (a :: t) then r ++ replF p r f ((a :: t).drop p.length)
              else a :: replF p r f t) =
             (if p.isPrefixOf (a :: t) then r ++ replF p r g ((a :: t).drop p.length)
              else a :: replF p r g t)
        by_cases h : p.isPrefixOf (a :: t)
        · rw [if_pos h, if_pos h]
          have hlen : ((a :: t).drop p.length).length ≤ t.length := by
            simp only [List.length_drop, List.length_cons]
            omega
          rw [ih g _ (hlen.trans (Nat.lt_succ_iff.mp (Nat.lt_of_lt_of_le (Nat.lt_succ_of_le le_rfl) hf)))
                (hlen.trans (Nat.lt_succ_iff.mp (Nat.lt_of_lt_of_le (Nat.lt_succ_of_le le_rfl) hg)))]
        · rw [if_neg h, if_neg h]
          have hf' : t.length ≤ f := by simpa using Nat.lt_succ_iff.mp (Nat.lt_of_lt_of_le (Nat.lt_succ_of_le le_rfl) hf)
          have hg' : t.length ≤ g := by simpa using Nat.lt_succ_iff.mp (Nat.lt_of_lt_of_le (Nat.lt_succ_of_le le_rfl) hg)
          rw [ih g t hf' hg']

theorem repl_nil (p r : Chars) : repl p r [] = [] := rfl

theorem repl_cons (p r : Chars) (hp : p ≠ []) (a : Char) (t : Chars) :
    repl p r (a :: t) =
      if p.isPrefixOf (a :: t) then r ++ repl p r ((a :: t).drop p.length)
      else a :: repl p r t := by
  show replF p r (t.length + 1) (a :: t) = _
  show (if p.isPrefixOf (a :: t) then r ++ replF p r t.length ((a :: t).drop p.length)
        else a :: replF p r t.length t) = _
  have hp1 : 1 ≤ p.length := List.length_pos.mpr hp
  by_cases h : p.isPrefixOf (a :: t)
  · rw [if_pos h, if_pos h]
    have hlen : ((a :: t).drop p.length).length ≤ t.length := by
      simp only [List.length_drop, List.length_cons]; omega
    rw [replF_fuel p r hp t.length ((a :: t).drop p.length).length _ hlen le_rfl]
    rfl
  · rw [if_neg h, if_neg h]
    rfl

/-- Characters outside the pattern are never deleted by `repl`. -/
theorem mem_repl_of_not_mem (p r : Chars) (hp : p ≠ []) (c : Char) (hc : c ∉ p) :
    ∀ n l, l.length ≤ n → c ∈ l → c ∈ repl p r l := by
  intro n
  induction n with
  | zero =>
    intro l hl hcl
    have : l = [] := List.length_eq_zero.mp (Nat.le_zero.mp hl)
    subst this; simp at hcl
  | succ n ih =>
    intro l hl hcl
    cases l with
    | nil => simp at hcl
    | cons a t =>
      have hp1 : 1 ≤ p.length := List.length_pos.mpr hp
      rw [repl_cons p r hp]
      by_cases h : p.isPrefixOf (a :: t)
      · rw [if_pos h]
        have heq := eq_append_drop_of_pfx (pfx_of_isPre h)
        rw [heq] at hcl
        rcases List.mem_append.mp hcl with h1 | h1
        · exact absurd h1 hc
        · have hlen : ((a :: t).drop p.length).length ≤ n := by
            simp only [List.length_drop, List.length_cons]
            simp only [List.length_cons] at hl; omega
          exact List.mem_append.mpr (Or.inr (ih _ hlen h1))
      · rw [if_neg h]
        rcases List.mem_cons.mp hcl with h1 | h1
        · exact h1 ▸ List.mem_cons_self a _
        · have hlen : t.length ≤ n := by simp only [List.length_cons] at hl; omega
          exact List.mem_cons_of_mem a (ih t hlen h1)

/-- When the pattern occurs, every character of the replacement text appears
in the output. -/
theorem mem_repl_of_ifx (p r : Chars) (hp : p ≠ []) (c : Char) (hc : c ∈ r) :
    ∀ n l, l.length ≤ n → p <:+: l → c ∈ repl p r l := by
  intro n
  induction n with
  | zero =>
    intro l hl hifx
    have : l = [] := List.length_eq_zero.mp (Nat.le_zero.mp hl)
    subst this
    exact absurd (List.infix_nil.mp hifx) hp
  | succ n ih =>
    intro l hl hifx
    cases l with
    | nil => exact absurd (List.infix_nil.mp hifx) hp
    | cons a t =>
      have hp1 : 1 ≤ p.length := List.length_pos.mpr hp
      rw [repl_cons p r hp]
      by_cases h : p.isPrefixOf (a :: t)
      · rw [if_pos h]; exact List.mem_append.mpr (Or.inl hc)
      · rw [if_neg h]
        rcases List.infix_cons_iff.mp hifx with h1 | h1
        · exact absurd (isPre_of_pfx h1) h
        · have hlen : t.length ≤ n := by simp only [List.length_cons] at hl; omega
          exact List.mem_cons_of_mem a (ih t hlen h1)

/-- The scanner copies any pattern-free initial window verbatim. -/
theorem repl_shift (p r : Chars) (hp : p ≠ []) :
    ∀ k l, (∀ j, j < k → ¬ p <+: l.drop j) →
      repl p r l = l.take k ++ repl p r (l.drop k) := by
  intro k
  induction k with
  | zero => intro l _; simp
  | succ k ih =>
    intro l hwin
    cases l with
    | nil => simp [repl_nil]
    | cons a t =>
      have h0 : ¬ p <+: (a :: t) := by
        have := hwin 0 (Nat.succ_pos k); simpa using this
      rw [repl_cons p r hp, if_neg (fun h => h0 (pfx_of_isPre h))]
      have hwin' : ∀ j, j < k → ¬ p <+: t.drop j := by
        intro j hj
        have := hwin (j + 1) (Nat.succ_lt_succ hj)
        simpa using this
      rw [ih t hwin']
      simp

/-! ### Non-overlapping patterns and occurrence survival -/

/-- `p` and `q` can never have intersecting occurrences in any string:
neither is an infix of the other, no proper suffix of `p` starts `q` and no
proper suffix of `q` starts `p`. -/
structure NoOverlap (p q : Chars) : Prop where
  not_ifx_left : ¬ q <:+: p
  not_ifx_right : ¬ p <:+: q
  drop_left : ∀ j, j < p.length → 0 < j → ¬ p.drop j <+: q
  drop_right : ∀ i, i < q.length → 0 < i → ¬ q.drop i <+: p

/-- If `p ++ rest = u ++ q ++ v` with non-overlapping `p`, `q`, the
occurrence of `q` lies entirely inside `rest`. -/
theorem occ_after {p q u v rest : Chars} (hpq : NoOverlap p q) (hp : p ≠ [])
    (hl : p ++ rest = u ++ (q ++ v)) : p.length ≤ u.length := by
  by_contra hcon
  push_neg at hcon
  have hupre : u <+: p ++ rest := ⟨q ++ v, hl.symm⟩
  have hppre : p <+: p ++ rest := List.prefix_append p rest
  have hup : u <+: p := List.prefix_of_prefix_length_le hupre hppre (Nat.le_of_lt hcon)
  have hpu : p = u ++ p.drop u.length := eq_append_drop_of_pfx hup
  set p' := p.drop u.length with hp'
  have hp'ne : p' ≠ [] := by
    have : p'.length = p.length - u.length := by simp [hp']
    intro hnil
    rw [hnil] at this
    simp at this
    omega
  have hcanc : p' ++ rest = q ++ v := by
    have : (u ++ p') ++ rest = u ++ (q ++ v) := by rw [← hpu]; exact hl
    rw [List.append_assoc] at this
    exact List.append_cancel_left this
  have hqpre : q <+: p' ++ rest := ⟨v, hcanc.symm⟩
  have hp'pre : p' <+: p' ++ rest := List.prefix_append p' rest
  by_cases hle : q.length ≤ p'.length
  · have hqp' : q <+: p' := List.prefix_of_prefix_length_le hqpre hp'pre hle
    have : q <:+: p := by
      rw [hpu]
      exact hqp'.isInfix.trans (List.suffix_append u p').isInfix
    exact hpq.not_ifx_left this
  · push_neg at hle
    have hp'q : p' <+: q := List.prefix_of_prefix_length_le hp'pre hqpre (Nat.le_of_lt hle)
    rcases Nat.eq_zero_or_pos u.length with hu0 | hu0
    · have hu : u = [] := List.length_eq_zero.mp hu0
      subst hu
      simp [hp'] at hp'q
      exact hpq.not_ifx_right hp'q.isInfix
    · exact hpq.drop_left u.length hcon hu0 hp'q

/-- No occurrence of `p` starts inside the leading `q`-window of `q ++ v`. -/
theorem no_occ_window {p q : Chars} (hpq : NoOverlap p q) (v : Chars) :
    ∀ j, j < q.length → ¬ p <+: (q ++ v).drop j := by
  intro j hj h
  rw [List.drop_append_of_le_length (Nat.le_of_lt hj)] at h
  have hqdpre : q.drop j <+: q.drop j ++ v := List.prefix_append _ v
  by_cases hle : p.length ≤ (q.drop j).length
  · have hpqd : p <+: q.drop j := List.prefix_of_prefix_length_le h hqdpre hle
    exact hpq.not_ifx_right (hpqd.isInfix.trans (List.drop_suffix j q).isInfix)
  · push_neg at hle
    have hqdp : q.drop j <+: p := List.prefix_of_prefix_length_le hqdpre h (Nat.le_of_lt hle)
    rcases Nat.eq_zero_or_pos j with hj0 | hj0
    · subst hj0
      simp at hqdp
      exact hpq.not_ifx_left hqdp.isInfix
    · exact hpq.drop_right j hj hj0 hqdp

/-- Occurrences of a non-overlapping pattern `q` survive the global
replacement of `p`. -/
theorem ifx_repl (p q r : Chars) (hpq : NoOverlap p q) (hp : p ≠ []) (hq : q ≠ []) :
    ∀ n l, l.length ≤ n → q <:+: l → q <:+: repl p r l := by
  intro n
  induction n with
  | zero =>
    intro l hl hifx
    have : l = [] := List.length_eq_zero.mp (Nat.le_zero.mp hl)
    subst this
    exact absurd (List.infix_nil.mp hifx) hq
  | succ n ih =>
    intro l hl hifx
    cases l with
    | nil => exact absurd (List.infix_nil.mp hifx) hq
    | cons a t =>
      have hp1 : 1 ≤ p.length := List.length_pos.mpr hp
      rcases List.infix_cons_iff.mp hifx with hqpre | hqt
      · -- the occurrence starts at the head: the whole window is copied
        have heq : (a :: t) = q ++ (a :: t).drop q.length := eq_append_drop_of_pfx hqpre
        have hwin : ∀ j, j < q.length → ¬ p <+: (a :: t).drop j := by
          intro j hj
          rw [heq]
          exact no_occ_window hpq _ j hj
        rw [repl_shift p r hp q.length (a :: t) hwin]
        have htake : (a :: t).take q.length = q :=
          (List.prefix_iff_eq_take.mp hqpre).symm
        rw [htake]
        exact (List.prefix_append q _).isInfix
      · by_cases hpre : p.isPrefixOf (a :: t)
        · rw [repl_cons p r hp, if_pos hpre]
          obtain ⟨u, v, huv⟩ := hifx
          have hl2 : p ++ (a :: t).drop p.length = u ++ (q ++ v) := by
            rw [← eq_append_drop_of_pfx (pfx_of_isPre hpre), ← List.append_assoc, huv]
          have hplen : p.length ≤ u.length := occ_after hpq hp hl2
          have hupre : p <+: u := by
            have hu : u <+: p ++ (a :: t).drop p.length := ⟨q ++ v, hl2.symm⟩
            exact List.prefix_of_prefix_length_le (List.prefix_append p _) hu hplen
          have hu2 : u = p ++ u.drop p.length := eq_append_drop_of_pfx hupre
          have hrest : (a :: t).drop p.length = u.drop p.length ++ (q ++ v) := by
            have : p ++ (a :: t).drop p.length = p ++ (u.drop p.length ++ (q ++ v)) := by
              rw [← List.append_assoc, ← hu2, hl2]
            exact List.append_cancel_left this
          have hqrest : q <:+: (a :: t).drop p.length := by
            rw [hrest]
            exact ((List.prefix_append q v).isInfix).trans (List.suffix_append _ _).isInfix
          have hlen : ((a :: t).drop p.length).length ≤ n := by
            simp only [List.length_drop, List.length_cons]
            simp only [List.length_cons] at hl
            omega
          exact (ih _ hlen hqrest).trans (List.suffix_append r _).isInfix
        · rw [repl_cons p r hp, if_neg hpre]
          have hlen : t.length ≤ n := by simp only [List.length_cons] at hl; omega
          exact List.infix_cons (ih t hlen hqt)

/-! ### The numeric character reference scanner -/

/-- The shape of a numeric character reference `&#ds;`. -/
def numPat (ds : Chars) : Chars := '&' :: '#' :: (ds ++ [';'])

theorem drop_takeWhile_len (q : Char → Bool) (l : Chars) :
    l.drop (l.takeWhile q).length = l.dropWhile q := by
  induction l with
  | nil => rfl
  | cons a t ih =>
    by_cases h : q a = true
    · simp [List.takeWhile_cons, List.dropWhile_cons, h, ih]
    · simp [List.takeWhile_cons, List.dropWhile_cons, h]

theorem numStep_some {l : Chars} {c : Char} {after : Chars}
    (h : numStep l = some (c, after)) :
    ∃ ds, ds ≠ [] ∧ (∀ ch ∈ ds, ch.isDigit) ∧ l = numPat ds ++ after ∧
      c = numRefChar ds := by
  match l with
  | [] => simp [numStep] at h
  | [a] =>
    have : numStep [a] = none := by unfold numStep; split <;> simp_all
    rw [this] at h; cases h
  | a :: b :: rest =>
    by_cases hab : a = '&' ∧ b = '#'
    · obtain ⟨ha, hb⟩ := hab
      subst ha; subst hb
      rw [show numStep ('&' :: '#' :: rest) =
            (let ds := rest.takeWhile fun c => c.isDigit
             if ds.isEmpty then none
             else match rest.drop ds.length with
               | ';' :: after => some (numRefChar ds, after)
               | _ => none) from rfl] at h
      simp only at h
      by_cases hds : (rest.takeWhile fun c => c.isDigit).isEmpty
      · rw [if_pos hds] at h; cases h
      · rw [if_neg hds] at h
        rcases hdrop : rest.drop (rest.takeWhile fun c => c.isDigit).length with _ | ⟨x, xs⟩
        · rw [hdrop] at h; cases h
        · rw [hdrop] at h
          by_cases hx : x = ';'
          · subst hx
            simp only [Option.some.injEq, Prod.mk.injEq] at h
            obtain ⟨hc, hafter⟩ := h
            refine ⟨rest.takeWhile fun c => c.isDigit, ?_, ?_, ?_, hc.symm⟩
            · simpa [List.isEmpty_iff] using hds
            · intro ch hch
              exact List.mem_takeWhile_imp hch
            · have hpre : (rest.takeWhile fun c => c.isDigit) <+: rest :=
                ⟨rest.dropWhile fun c => c.isDigit,
                  List.takeWhile_append_dropWhile _ rest⟩
              have hsplit : rest = (rest.takeWhile fun c => c.isDigit) ++
                  (';' :: xs) := by
                conv_lhs => rw [eq_append_drop_of_pfx hpre]
                rw [hdrop]
              rw [numPat, ← hafter]
              conv_lhs => rw [hsplit]
              simp [List.append_assoc]
          · cases x <;> simp_all
    · have hnone : numStep (a :: b :: rest) = none := by
        unfold numStep
        split
        · rename_i heq
          exact absurd (by cases heq; exact ⟨rfl, rfl⟩) hab
        · rfl
      rw [hnone] at h; cases h

theorem takeWhile_all_stop (q : Char → Bool) (xs ys : Chars) (y : Char)
    (hxs : ∀ c ∈ xs, q c) (hy : ¬ q y) :
    (xs ++ y :: ys).takeWhile q = xs := by
  induction xs with
  | nil => simp [List.takeWhile_cons, hy]
  | cons a t ih =>
    have ha : q a := hxs a (List.mem_cons_self a t)
    simp only [List.cons_append, List.takeWhile_cons, ha, if_true]
    rw [ih fun c hc => hxs c (List.mem_cons_of_mem a hc)]

theorem numStep_numPat (ds v : Chars) (hne : ds ≠ []) (hd : ∀ c ∈ ds, c.isDigit) :
    numStep (numPat ds ++ v) = some (numRefChar ds, v) := by
  have hform : numPat ds ++ v = '&' :: '#' :: (ds ++ ';' :: v) := by
    simp [numPat, List.append_assoc]
  rw [hform]
  show (let es := (ds ++ ';' :: v).takeWhile fun c => c.isDigit
        if es.isEmpty then none
        else match (ds ++ ';' :: v).drop es.length with
          | ';' :: after => some (numRefChar es, after)
          | _ => none) = some (numRefChar ds, v)
  have htw : (ds ++ ';' :: v).takeWhile (fun c => c.isDigit) = ds :=
    takeWhile_all_stop _ ds v ';' hd (by decide)
  simp only [htw]
  rw [if_neg (by simpa [List.isEmpty_iff] using hne)]
  rw [List.drop_left ds (';' :: v)]
  rfl

theorem numStep_after_len {a : Char} {t : Chars} {c : Char} {after : Chars}
    (h : numStep (a :: t) = some (c, after)) : after.length ≤ t.length := by
  obtain ⟨ds, hne, _, heq, _⟩ := numStep_some h
  have := congrArg List.length heq
  simp [numPat] at this
  omega

theorem replNumF_fuel :
    ∀ f g l, l.length ≤ f → l.length ≤ g → replNumF f l = replNumF g l := by
  intro f
  induction f with
  | zero =>
    intro g l hf _
    have : l = [] := List.length_eq_zero.mp (Nat.le_zero.mp hf)
    subst this
    cases g <;> rfl
  | succ f ih =>
    intro g l hf hg
    cases l with
    | nil => cases g <;> rfl
    | cons a t =>
      cases g with
      | zero => simp at hg
      | succ g =>
        show (match numStep (a :: t) with
              | some (c, after) => c :: replNumF f after
              | none => a :: replNumF f t) =
             (match numStep (a :: t) with
              | some (c, after) => c :: replNumF g after
              | none => a :: replNumF g t)
        rcases hstep : numStep (a :: t) with _ | ⟨c, after⟩
        · simp only
          have hf' : t.length ≤ f := by simp only [List.length_cons] at hf; omega
          have hg' : t.length ≤ g := by simp only [List.length_cons] at hg; omega
          rw [ih g t hf' hg']
        · simp only
          have hal := numStep_after_len hstep
          have hf' : after.length ≤ f := by
            simp only [List.length_cons] at hf; omega
          have hg' : after.length ≤ g := by
            simp only [List.length_cons] at hg; omega
          rw [ih g after hf' hg']

theorem replNum_nil : replNum [] = [] := rfl

theorem replNum_cons (a : Char) (t : Chars) :
    replNum (a :: t) =
      match numStep (a :: t) with
      | some (c, after) => c :: replNum after
      | none => a :: replNum t := by
  show replNumF (t.length + 1) (a :: t) = _
  show (match numStep (a :: t) with
        | some (c, after) => c :: replNumF t.length after
        | none => a :: replNumF t.length t) = _
  rcases hstep : numStep (a :: t) with _ | ⟨c, after⟩
  · rfl
  · simp only
    rw [replNumF_fuel t.length after.length after (numStep_after_len hstep) le_rfl]
    rfl

/-- A pattern headed by a non-digit character occurring as an infix of a
digit run followed by `r` must occur inside `r`. -/
theorem ifx_through_digits {b : Char} {q' : Chars} (hb : ¬ b.isDigit) :
    ∀ es r : Chars, (∀ c ∈ es, c.isDigit) → (b :: q') <:+: es ++ r →
      (b :: q') <:+: r := by
  intro es
  induction es with
  | nil => intro r _ h; simpa using h
  | cons e es' ih =>
    intro r hd h
    rcases List.infix_cons_iff.mp h with hpre | hifx
    · have : b = e := (List.cons_prefix_cons.mp hpre).1
      exact absurd (this ▸ hd e (List.mem_cons_self e es')) hb
    · exact ih r (fun c hc => hd c (List.mem_cons_of_mem e hc)) hifx

/-- A numeric reference occurrence survives the scan and its decoded
character appears in the output. -/
theorem mem_replNum_of_ifx (ds : Chars) (hne : ds ≠ [])
    (hd : ∀ c ∈ ds, c.isDigit) :
    ∀ n l, l.length ≤ n → numPat ds <:+: l → numRefChar ds ∈ replNum l := by
  intro n
  induction n with
  | zero =>
    intro l hl hifx
    have : l = [] := List.length_eq_zero.mp (Nat.le_zero.mp hl)
    subst this
    exact absurd (List.infix_nil.mp hifx) (by simp [numPat])
  | succ n ih =>
    intro l hl hifx
    cases l with
    | nil => exact absurd (List.infix_nil.mp hifx) (by simp [numPat])
    | cons a t =>
      rw [replNum_cons]
      rcases List.infix_cons_iff.mp hifx with hqpre | hqt
      · -- occurrence at the head: the scanner matches it exactly
        have heq : (a :: t) = numPat ds ++ (a :: t).drop (numPat ds).length :=
          eq_append_drop_of_pfx hqpre
        rw [heq, numStep_numPat ds _ hne hd]
        exact List.mem_cons_self _ _
      · rcases hstep : numStep (a :: t) with _ | ⟨c, after⟩
        · simp only
          have hlen : t.length ≤ n := by simp only [List.length_cons] at hl; omega
          exact List.mem_cons_of_mem a (ih t hlen hqt)
        · simp only
          obtain ⟨es, hesne, hesd, heq, _⟩ := numStep_some hstep
          -- the occurrence cannot start at the head (it would be the match
          -- itself), nor inside the digit block: it lies inside `after`
          have hq_in_after : numPat ds <:+: after := by
            have hteq : t = '#' :: (es ++ ';' :: after) := by
              have : a :: t = '&' :: '#' :: (es ++ ';' :: after) := by
                rw [heq]; simp [numPat, List.append_assoc]
              exact (List.cons.injEq _ _ _ _ ▸ this :
                a = '&' ∧ t = '#' :: (es ++ ';' :: after)).2
            rw [hteq] at hqt
            rcases List.infix_cons_iff.mp hqt with hpre1 | hifx1
            · exact absurd (List.cons_prefix_cons.mp hpre1).1 (by simp [numPat])
            · have : numPat ds <:+: ';' :: after :=
                ifx_through_digits (by decide) es (';' :: after) hesd hifx1
              rcases List.infix_cons_iff.mp this with hpre2 | hifx2
              · exact absurd (List.cons_prefix_cons.mp hpre2).1 (by simp [numPat])
              · exact hifx2
          have hlen : after.length ≤ n := by
            have := numStep_after_len hstep
            simp only [List.length_cons] at hl
            omega
          exact List.mem_cons_of_mem c (ih after hlen hq_in_after)

/-- Characters that cannot take part in a numeric reference are preserved
by the scan. -/
theorem mem_replNum_of_safe (c : Char) (hc1 : c ≠ '&') (hc2 : c ≠ '#')
    (hc3 : c ≠ ';') (hc4 : ¬ c.isDigit) :
    ∀ n l, l.length ≤ n → c ∈ l → c ∈ replNum l := by
  intro n
  induction n with
  | zero =>
    intro l hl hcl
    have : l = [] := List.length_eq_zero.mp (Nat.le_zero.mp hl)
    subst this; simp at hcl
  | succ n ih =>
    intro l hl hcl
    cases l with
    | nil => simp at hcl
    | cons a t =>
      rw [replNum_cons]
      rcases hstep : numStep (a :: t) with _ | ⟨e, after⟩
      · simp only
        rcases List.mem_cons.mp hcl with h1 | h1
        · exact h1 ▸ List.mem_cons_self a _
        · have hlen : t.length ≤ n := by simp only [List.length_cons] at hl; omega
          exact List.mem_cons_of_mem a (ih t hlen h1)
      · simp only
        obtain ⟨es, _, hesd, heq, _⟩ := numStep_some hstep
        rw [heq] at hcl
        rcases List.mem_append.mp hcl with h1 | h1
        · exfalso
          rcases List.mem_cons.mp h1 with h2 | h2
          · exact hc1 h2
          rcases List.mem_cons.mp h2 with h3 | h3
          · exact hc2 h3
          rcases List.mem_append.mp h3 with h4 | h4
          · exact hc4 (hesd c h4)
          · exact hc3 (by simpa using h4)
        · have hlen : after.length ≤ n := by
            have := numStep_after_len hstep
            simp only [List.length_cons] at hl
            omega
          exact List.mem_cons_of_mem e (ih after hlen h1)

/-! ### Overlap-freeness of the entity patterns -/

theorem not_pfx_of_head_ne {a b : Char} (h : a ≠ b) (x y : Chars) :
    ¬ (a :: x) <+: (b :: y) := fun hp => h (List.cons_prefix_cons.mp hp).1

theorem pfx_of_ifx_amp_head {x y : Chars} (h : ('&' :: x) <:+: ('&' :: y))
    (hy : '&' ∉ y) : ('&' :: x) <+: ('&' :: y) := by
  rcases List.infix_cons_iff.mp h with h1 | h1
  · exact h1
  · exact absurd (h1.subset (List.mem_cons_self _ _)) hy

theorem mem_numPat_elim {c : Char} {ds : Chars} (h : c ∈ numPat ds) :
    c = '&' ∨ c = '#' ∨ c = ';' ∨ c ∈ ds := by
  simp only [numPat, List.mem_cons, List.mem_append, List.mem_singleton] at h
  tauto

theorem amp_not_mem_numPat_tail {ds : Chars} (hd : ∀ c ∈ ds, c.isDigit) :
    '&' ∉ '#' :: (ds ++ [';']) := by
  intro h
  rcases List.mem_cons.mp h with h1 | h1
  · exact absurd h1 (by decide)
  rcases List.mem_append.mp h1 with h2 | h2
  · exact absurd (hd '&' h2) (by decide)
  · have h3 : ('&' : Char) = ';' := by simpa using h2
    exact absurd h3 (by decide)

theorem drop_not_pfx_numPat {pt : Chars} (hamp : '&' ∉ pt) (ds : Chars) :
    ∀ j, j < ('&' :: pt).length → 0 < j → ¬ ('&' :: pt).drop j <+: numPat ds := by
  intro j hj hj0 hp
  obtain ⟨j', rfl⟩ : ∃ j', j = j' + 1 := ⟨j - 1, by omega⟩
  rw [List.drop_succ_cons] at hp
  have hne : pt.drop j' ≠ [] := by
    intro hnil
    have := congrArg List.length hnil
    simp only [List.length_drop, List.length_cons, List.length_nil] at this hj
    omega
  obtain ⟨h, t', ht⟩ := List.exists_cons_of_ne_nil hne
  rw [ht] at hp
  have hmem : h ∈ pt := List.drop_subset j' pt (ht ▸ List.mem_cons_self h t')
  have hne2 : h ≠ '&' := fun he => hamp (he ▸ hmem)
  exact not_pfx_of_head_ne hne2 t' _ hp

theorem numPat_drop_not_pfx_amp {ds : Chars} (hd : ∀ c ∈ ds, c.isDigit)
    (rest : Chars) :
    ∀ i, i < (numPat ds).length → 0 < i → ¬ (numPat ds).drop i <+: ('&' :: rest) := by
  intro i hi hi0 hp
  obtain ⟨i', rfl⟩ : ∃ i', i = i' + 1 := ⟨i - 1, by omega⟩
  rw [show numPat ds = '&' :: ('#' :: (ds ++ [';'])) from rfl,
    List.drop_succ_cons] at hp
  have hne : ('#' :: (ds ++ [';'])).drop i' ≠ [] := by
    intro hnil
    have := congrArg List.length hnil
    simp only [List.length_drop, List.length_cons, List.length_append,
      List.length_singleton, List.length_nil, numPat] at this hi
    omega
  obtain ⟨h, t', ht⟩ := List.exists_cons_of_ne_nil hne
  rw [ht] at hp
  have hmem : h ∈ '#' :: (ds ++ [';']) :=
    List.drop_subset i' _ (ht ▸ List.mem_cons_self h t')
  refine not_pfx_of_head_ne (fun he => amp_not_mem_numPat_tail hd ?_) t' _ hp
  rw [← he]
  exact hmem

/-- Overlap-freeness of `&amp;`/`&lt;`/`&gt;`/`&quot;` with arbitrary
numeric references: witnessed by a character of the pattern that can occur
in no numeric reference. -/
theorem noOv_gen_numPat (pt : Chars) (hamp : '&' ∉ pt) (c₀ : Char)
    (hc₀ : c₀ ∈ '&' :: pt) (h1 : c₀ ≠ '&') (h2 : c₀ ≠ '#') (h3 : c₀ ≠ ';')
    (h4 : ¬ c₀.isDigit) (hhash : '#' ∉ '&' :: pt)
    (ds : Chars) (hd : ∀ c ∈ ds, c.isDigit) :
    NoOverlap ('&' :: pt) (numPat ds) := by
  refine ⟨?_, ?_, drop_not_pfx_numPat hamp ds, numPat_drop_not_pfx_amp hd pt⟩
  · intro hifx
    exact hhash (hifx.subset (by simp [numPat]))
  · intro hifx
    rcases mem_numPat_elim (hifx.subset hc₀) with h | h | h | h
    · exact h1 h
    · exact h2 h
    · exact h3 h
    · exact h4 (hd c₀ h)

theorem pfx_39_semi {ds : Chars} (hd : ∀ c ∈ ds, c.isDigit)
    (h : ['3', '9', ';'] <+: ds ++ [';']) : ds = ['3', '9'] := by
  obtain ⟨k, hk⟩ := h
  match ds with
  | [] =>
    have hlen := congrArg List.length hk
    simp only [List.length_append, List.length_cons, List.length_nil] at hlen
    omega
  | [d] =>
    have hlen := congrArg List.length hk
    simp only [List.length_append, List.length_cons, List.length_nil] at hlen
    omega
  | d :: e :: ds₃ =>
    simp only [List.cons_append, List.cons.injEq] at hk
    obtain ⟨h3, h9, hk3⟩ := hk
    match ds₃ with
    | [] => rw [← h3, ← h9]
    | f :: ds₄ =>
      simp only [List.cons_append, List.cons.injEq] at hk3
      have hf : (';' : Char) = f := hk3.1
      have hfd : f.isDigit := hd f (by simp)
      rw [← hf] at hfd
      exact absurd hfd (by decide)

theorem semi_39_pfx {ds : Chars} (hd : ∀ c ∈ ds, c.isDigit)
    (h : ds ++ [';'] <+: ['3', '9', ';']) : ds = ['3', '9'] := by
  obtain ⟨k, hk⟩ := h
  match ds with
  | [] =>
    simp only [List.nil_append, List.cons_append, List.cons.injEq] at hk
    exact absurd hk.1 (by decide)
  | [d] =>
    simp only [List.cons_append, List.nil_append, List.cons.injEq] at hk
    exact absurd hk.2.1 (by decide)
  | [d, e] =>
    simp only [List.cons_append, List.nil_append, List.cons.injEq] at hk
    rw [hk.1, hk.2.1]
  | d :: e :: f :: ds₄ =>
    have hlen := congrArg List.length hk
    simp only [List.length_append, List.length_cons, List.length_nil] at hlen
    omega

/-- Overlap-freeness of `&#39;` with numeric references other than `&#39;`
itself. -/
theorem noOv_apos_numPat (ds : Chars) (hd : ∀ c ∈ ds, c.isDigit)
    (hne39 : ds ≠ ['3', '9']) : NoOverlap pApos (numPat ds) := by
  refine ⟨?_, ?_, ?_, numPat_drop_not_pfx_amp hd _⟩
  · -- ¬ numPat ds <:+: pApos
    intro hifx
    have hpre : numPat ds <+: pApos :=
      pfx_of_ifx_amp_head hifx (by decide)
    have h2 := (List.cons_prefix_cons.mp hpre).2
    have h3 := (List.cons_prefix_cons.mp h2).2
    exact hne39 (semi_39_pfx hd h3)
  · -- ¬ pApos <:+: numPat ds
    intro hifx
    have hpre : pApos <+: numPat ds :=
      pfx_of_ifx_amp_head hifx (amp_not_mem_numPat_tail hd)
    have h2 := (List.cons_prefix_cons.mp hpre).2
    have h3 := (List.cons_prefix_cons.mp h2).2
    exact hne39 (pfx_39_semi hd h3)
  · -- proper suffixes of pApos never start a numeric reference
    intro j hj hj0 hp
    have hj5 : j < 5 := by simpa [pApos] using hj
    clear hj
    interval_cases j
    · exact not_pfx_of_head_ne (by decide) _ _ hp
    · exact not_pfx_of_head_ne (by decide) _ _ hp
    · exact not_pfx_of_head_ne (by decide) _ _ hp
    · exact not_pfx_of_head_ne (by decide) _ _ hp

theorem noOv_amp_lt : NoOverlap pAmp pLt := ⟨by decide, by decide, by decide, by decide⟩

theorem noOv_amp_gt : NoOverlap pAmp pGt := ⟨by decide, by decide, by decide, by decide⟩

theorem noOv_amp_quot : NoOverlap pAmp pQuot := ⟨by decide, by decide, by decide, by decide⟩

theorem noOv_amp_apos : NoOverlap pAmp pApos := ⟨by decide, by decide, by decide, by decide⟩

theorem noOv_lt_gt : NoOverlap pLt pGt := ⟨by decide, by decide, by decide, by decide⟩

theorem noOv_lt_quot : NoOverlap pLt pQuot := ⟨by decide, by decide, by decide, by decide⟩

theorem noOv_lt_apos : NoOverlap pLt pApos := ⟨by decide, by decide, by decide, by decide⟩

theorem noOv_gt_quot : NoOverlap pGt pQuot := ⟨by decide, by decide, by decide, by decide⟩

theorem noOv_gt_apos : NoOverlap pGt pApos := ⟨by decide, by decide, by decide, by decide⟩

theorem noOv_quot_apos : NoOverlap pQuot pApos := ⟨by decide, by decide, by decide, by decide⟩

/-! ### Entity decoding guarantees -/

theorem decode_lt_mem (s : String) (h : pLt <:+: s.data) :
    '<' ∈ (decodeHtml s).data := by
  have h1 : pLt <:+: repl pAmp ['&'] s.data :=
    ifx_repl pAmp pLt ['&'] noOv_amp_lt (by decide) (by decide) _ _ le_rfl h
  have h2 : '<' ∈ repl pLt ['<'] (repl pAmp ['&'] s.data) :=
    mem_repl_of_ifx pLt ['<'] (by decide) '<' (by decide) _ _ le_rfl h1
  have h3 := mem_repl_of_not_mem pGt ['>'] (by decide) '<' (by decide) _ _ le_rfl h2
  have h4 := mem_repl_of_not_mem pQuot ['"'] (by decide) '<' (by decide) _ _ le_rfl h3
  have h5 := mem_repl_of_not_mem pApos ['\''] (by decide) '<' (by decide) _ _ le_rfl h4
  exact mem_replNum_of_safe '<' (by decide) (by decide) (by decide) (by decide)
    _ _ le_rfl h5

theorem decode_gt_mem (s : String) (h : pGt <:+: s.data) :
    '>' ∈ (decodeHtml s).data := by
  have h1 : pGt <:+: repl pAmp ['&'] s.data :=
    ifx_repl pAmp pGt ['&'] noOv_amp_gt (by decide) (by decide) _ _ le_rfl h
  have h2 : pGt <:+: repl pLt ['<'] (repl pAmp ['&'] s.data) :=
    ifx_repl pLt pGt ['<'] noOv_lt_gt (by decide) (by decide) _ _ le_rfl h1
  have h3 : '>' ∈ repl pGt ['>'] (repl pLt ['<'] (repl pAmp ['&'] s.data)) :=
    mem_repl_of_ifx pGt ['>'] (by decide) '>' (by decide) _ _ le_rfl h2
  have h4 := mem_repl_of_not_mem pQuot ['"'] (by decide) '>' (by decide) _ _ le_rfl h3
  have h5 := mem_repl_of_not_mem pApos ['\''] (by decide) '>' (by decide) _ _ le_rfl h4
  exact mem_replNum_of_safe '>' (by decide) (by decide) (by decide) (by decide)
    _ _ le_rfl h5

theorem decode_quot_mem (s : String) (h : pQuot <:+: s.data) :
    '"' ∈ (decodeHtml s).data := by
  have h1 : pQuot <:+: repl pAmp ['&'] s.data :=
    ifx_repl pAmp pQuot ['&'] noOv_amp_quot (by decide) (by decide) _ _ le_rfl h
  have h2 : pQuot <:+: repl pLt ['<'] (repl pAmp ['&'] s.data) :=
    ifx_repl pLt pQuot ['<'] noOv_lt_quot (by decide) (by decide) _ _ le_rfl h1
  have h3 : pQuot <:+: repl pGt ['>'] (repl pLt ['<'] (repl pAmp ['&'] s.data)) :=
    ifx_repl pGt pQuot ['>'] noOv_gt_quot (by decide) (by decide) _ _ le_rfl h2
  have h4 : '"' ∈ repl pQuot ['"']
      (repl pGt ['>'] (repl pLt ['<'] (repl pAmp ['&'] s.data))) :=
    mem_repl_of_ifx pQuot ['"'] (by decide) '"' (by decide) _ _ le_rfl h3
  have h5 := mem_repl_of_not_mem pApos ['\''] (by decide) '"' (by decide) _ _ le_rfl h4
  exact mem_replNum_of_safe '"' (by decide) (by decide) (by decide) (by decide)
    _ _ le_rfl h5

theorem decode_apos_mem (s : String) (h : pApos <:+: s.data) :
    '\'' ∈ (decodeHtml s).data := by
  have h1 : pApos <:+: repl pAmp ['&'] s.data :=
    ifx_repl pAmp pApos ['&'] noOv_amp_apos (by decide) (by decide) _ _ le_rfl h
  have h2 : pApos <:+: repl pLt ['<'] (repl pAmp ['&'] s.data) :=
    ifx_repl pLt pApos ['<'] noOv_lt_apos (by decide) (by decide) _ _ le_rfl h1
  have h3 : pApos <:+: repl pGt ['>'] (repl pLt ['<'] (repl pAmp ['&'] s.data)) :=
    ifx_repl pGt pApos ['>'] noOv_gt_apos (by decide) (by decide) _ _ le_rfl h2
  have h4 : pApos <:+: repl pQuot ['"']
      (repl pGt ['>'] (repl pLt ['<'] (repl pAmp ['&'] s.data))) :=
    ifx_repl pQuot pApos ['"'] noOv_quot_apos (by decide) (by decide) _ _ le_rfl h3
  have h5 : '\'' ∈ repl pApos ['\''] (repl pQuot ['"']
      (repl pGt ['>'] (repl pLt ['<'] (repl pAmp ['&'] s.data)))) :=
    mem_repl_of_ifx pApos ['\''] (by decide) '\'' (by decide) _ _ le_rfl h4
  exact mem_replNum_of_safe '\'' (by decide) (by decide) (by decide) (by decide)
    _ _ le_rfl h5

theorem numPat_ne_nil (ds : Chars) : numPat ds ≠ [] := by simp [numPat]

theorem decode_numref_mem (s : String) (ds : Chars) (hne : ds ≠ [])
    (hd : ∀ c ∈ ds, c.isDigit) : numPat ds <:+: s.data →
    numRefChar ds ∈ (decodeHtml s).data := by
  intro h
  by_cases h39 : ds = ['3', '9']
  · -- `&#39;` is decoded by the apostrophe step already, and the decoded
    -- character is exactly `fromCharCode(39)`
    subst h39
    have : numRefChar ['3', '9'] = '\'' := by decide
    rw [this]
    exact decode_apos_mem s h
  · have h1 : numPat ds <:+: repl pAmp ['&'] s.data :=
      ifx_repl pAmp (numPat ds) ['&']
        (noOv_gen_numPat ['a', 'm', 'p', ';'] (by decide) 'a' (by decide)
          (by decide) (by decide) (by decide) (by decide) (by decide) ds hd)
        (by decide) (numPat_ne_nil ds) _ _ le_rfl h
    have h2 : numPat ds <:+: repl pLt ['<'] (repl pAmp ['&'] s.data) :=
      ifx_repl pLt (numPat ds) ['<']
        (noOv_gen_numPat ['l', 't', ';'] (by decide) 'l' (by decide)
          (by decide) (by decide) (by decide) (by decide) (by decide) ds hd)
        (by decide) (numPat_ne_nil ds) _ _ le_rfl h1
    have h3 : numPat ds <:+:
        repl pGt ['>'] (repl pLt ['<'] (repl pAmp ['&'] s.data)) :=
      ifx_repl pGt (numPat ds) ['>']
        (noOv_gen_numPat ['g', 't', ';'] (by decide) 'g' (by decide)
          (by decide) (by decide) (by decide) (by decide) (by decide) ds hd)
        (by decide) (numPat_ne_nil ds) _ _ le_rfl h2
    have h4 : numPat ds <:+: repl pQuot ['"']
        (repl pGt ['>'] (repl pLt ['<'] (repl pAmp ['&'] s.data))) :=
      ifx_repl pQuot (numPat ds) ['"']
        (noOv_gen_numPat ['q', 'u', 'o', 't', ';'] (by decide) 'q' (by decide)
          (by decide) (by decide) (by decide) (by decide) (by decide) ds hd)
        (by decide) (numPat_ne_nil ds) _ _ le_rfl h3
    have h5 : numPat ds <:+: repl pApos ['\''] (repl pQuot ['"']
        (repl pGt ['>'] (repl pLt ['<'] (repl pAmp ['&'] s.data)))) :=
      ifx_repl pApos (numPat ds) ['\'']
        (noOv_apos_numPat ds hd h39) (by decide) (numPat_ne_nil ds) _ _ le_rfl h4
    exact mem_replNum_of_ifx ds hne hd _ _ le_rfl h5

/-! ### Behaviour of the strategy loops -/

theorem s1Loop_ok_ne (ftr : FetchTr) (id : String) :
    ∀ (opts : List (Option String)) (i : ℕ) (le : Option String)
      (att att2 : List String) (tr : List Item),
      s1Loop ftr id opts i le att = (att2, .ok tr) → tr ≠ [] := by
  intro opts
  induction opts with
  | nil =>
    intro i le att att2 tr h
    simp [s1Loop] at h
  | cons o rest ih =>
    intro i le att att2 tr h
    simp only [s1Loop] at h
    split at h
    · split at h
      · rename_i tr0 heq h0
        cases h
        exact h0
      · exact ih _ _ _ _ _ h
    · exact ih _ _ _ _ _ h

theorem s2Loop_ok_ne (fetchO : Fetch) :
    ∀ (us : List String) (ls : Option ℕ) (att att2 : List String) (tr : List Item),
      s2Loop fetchO us ls att = (att2, .ok tr) → tr ≠ [] := by
  intro us
  induction us with
  | nil =>
    intro ls att att2 tr h
    simp [s2Loop] at h
  | cons u rest ih =>
    intro ls att att2 tr h
    simp only [s2Loop] at h
    split at h
    · exact ih _ _ _ _ h
    · split at h
      · exact ih _ _ _ _ h
      · split at h
        · rename_i hcond
          cases h
          exact fun hnil => by simp [hnil] at hcond
        · split at h
          · rename_i hcond
            cases h
            exact fun hnil => by simp [hnil] at hcond
          · exact ih _ _ _ _ h

theorem tryYtdl_ok_ne (ginfo : GetInfo) (fetchO : Fetch) (id : String)
    (pref : Option String) (att att2 : List String) (tr : List Item)
    (h : tryYtdl ginfo fetchO id pref att = (att2, .ok tr)) : tr ≠ [] := by
  simp only [tryYtdl] at h
  split at h
  · cases h
  · split at h
    · cases h
    · split at h
      · cases h
      · exact s2Loop_ok_ne fetchO _ none _ att2 tr h

theorem s3FetchLoop_ok_ne (fetchO : Fetch) (id : String) (chosen : TrackT) :
    ∀ (bs : List Bool) (att att2 : List String) (tr : List Item),
      s3FetchLoop fetchO id chosen bs att = (att2, .ok tr) → tr ≠ [] := by
  intro bs
  induction bs with
  | nil =>
    intro att att2 tr h
    simp [s3FetchLoop] at h
  | cons b rest ih =>
    intro att att2 tr h
    simp only [s3FetchLoop] at h
    split at h
    · cases h
    · split at h
      · exact ih _ _ _ h
      · split at h
        · rename_i hcond
          cases h
          exact fun hnil => by simp [hnil] at hcond
        · split at h
          · rename_i hcond
            cases h
            exact fun hnil => by simp [hnil] at hcond
          · exact ih _ _ _ h

theorem tryTimedtextEndpoint_ok_ne (fetchO : Fetch) (id : String)
    (pref : Option String) (att att2 : List String) (tr : List Item)
    (h : tryTimedtextEndpoint fetchO id pref att = (att2, .ok tr)) : tr ≠ [] := by
  simp only [tryTimedtextEndpoint] at h
  split at h
  · cases h
  · split at h
    · cases h
    · split at h
      · cases h
      · exact s3FetchLoop_ok_ne fetchO id _ _ _ att2 tr h

/-- Strategy 1 stops at the first option whose fetch returns a non-empty
cue list, having logged exactly the options attempted so far, in order. -/
theorem s1Loop_succeeds (ftr : FetchTr) (id : String) :
    ∀ (opts : List (Option String)) (i0 : ℕ) (le : Option String)
      (att : List String) (k : ℕ) (hk : k < opts.length) (tr : List Item),
      (∀ i (hi : i < k), failOrEmpty (ftr id (i0 + i) (opts.get ⟨i, hi.trans hk⟩))) →
      ftr id (i0 + k) (opts.get ⟨k, hk⟩) = .ok tr → tr ≠ [] →
      s1Loop ftr id opts i0 le att =
        (att ++ (opts.take (k + 1)).map s1Label, .ok tr) := by
  intro opts
  induction opts with
  | nil =>
    intro i0 le att k hk
    simp at hk
  | cons o rest ih =>
    intro i0 le att k hk tr hfail hsucc htr
    match k with
    | 0 =>
      have hs : ftr id i0 o = .ok tr := hsucc
      simp only [s1Loop, hs]
      simp [htr]
    | k' + 1 =>
      have h0 : failOrEmpty (ftr id i0 o) := hfail 0 (Nat.succ_pos k')
      have hk' : k' < rest.length := Nat.lt_of_succ_lt_succ hk
      have hfail' : ∀ i (hi : i < k'),
          failOrEmpty (ftr id (i0 + 1 + i) (rest.get ⟨i, hi.trans hk'⟩)) := by
        intro i hi
        have := hfail (i + 1) (Nat.succ_lt_succ hi)
        have harith : i0 + (i + 1) = i0 + 1 + i := by omega
        rw [harith] at this
        exact this
      have hsucc' : ftr id (i0 + 1 + k') (rest.get ⟨k', hk'⟩) = .ok tr := by
        have harith : i0 + (k' + 1) = i0 + 1 + k' := by omega
        rw [harith] at hsucc
        exact hsucc
      have hrec := ih (i0 + 1) (match ftr id i0 o with
        | .ok _ => le
        | .error e => some e) (att ++ [s1Label o]) k' hk' tr hfail' hsucc' htr
      simp only [s1Loop]
      rcases hr : ftr id i0 o with e | tr0
      · rw [hr] at hrec
        simp only
        rw [ih (i0 + 1) (some e) (att ++ [s1Label o]) k' hk' tr hfail' hsucc' htr]
        simp [List.take_succ_cons, List.append_assoc]
      · rw [hr] at h0
        have h0' : tr0 = [] := h0
        simp only [h0']
        rw [if_neg (by simp)]
        rw [ih (i0 + 1) le (att ++ [s1Label o]) k' hk' tr hfail' hsucc' htr]
        simp [List.take_succ_cons, List.append_assoc]

/-- When every library call throws the same error, Strategy 1 walks the
whole option list, logging each option, and rethrows that error. -/
theorem s1Loop_all_err (ftr : FetchTr) (id : String) (e : String)
    (hall : ∀ i o, ftr id i o = .error e) :
    ∀ (opts : List (Option String)) (i0 : ℕ) (att : List String),
      opts ≠ [] → ∀ le, s1Loop ftr id opts i0 le att =
        (att ++ opts.map s1Label, .error e) := by
  intro opts
  induction opts with
  | nil =>
    intro i0 att h
    exact absurd rfl h
  | cons o rest ih =>
    intro i0 att _ le
    simp only [s1Loop, hall i0 o]
    by_cases hr : rest = []
    · subst hr
      simp [s1Loop]
    · rw [ih (i0 + 1) (att ++ [s1Label o]) hr (some e)]
      simp

theorem s2Loop_ok_src (fetchO : Fetch) :
    ∀ (us : List String) (ls : Option ℕ) (att att2 : List String) (tr : List Item),
      s2Loop fetchO us ls att = (att2, .ok tr) → comesFromParser fetchO tr := by
  intro us
  induction us with
  | nil =>
    intro ls att att2 tr h
    simp [s2Loop] at h
  | cons u rest ih =>
    intro ls att att2 tr h
    simp only [s2Loop] at h
    split at h
    · exact ih _ _ _ _ h
    · rename_i st body heq
      split at h
      · exact ih _ _ _ _ h
      · split at h
        · cases h
          exact ⟨u, st, body, heq, Or.inl rfl⟩
        · split at h
          · cases h
            exact ⟨u, st, body, heq, Or.inr rfl⟩
          · exact ih _ _ _ _ h

theorem tryYtdl_ok_src (ginfo : GetInfo) (fetchO : Fetch) (id : String)
    (pref : Option String) (att att2 : List String) (tr : List Item)
    (h : tryYtdl ginfo fetchO id pref att = (att2, .ok tr)) :
    comesFromParser fetchO tr := by
  simp only [tryYtdl] at h
  split at h
  · cases h
  · split at h
    · cases h
    · split at h
      · cases h
      · exact s2Loop_ok_src fetchO _ none _ att2 tr h

theorem s3FetchLoop_ok_src (fetchO : Fetch) (id : String) (chosen : TrackT) :
    ∀ (bs : List Bool) (att att2 : List String) (tr : List Item),
      s3FetchLoop fetchO id chosen bs att = (att2, .ok tr) →
      comesFromParser fetchO tr := by
  intro bs
  induction bs with
  | nil =>
    intro att att2 tr h
    simp [s3FetchLoop] at h
  | cons b rest ih =>
    intro att att2 tr h
    simp only [s3FetchLoop] at h
    split at h
    · cases h
    · rename_i st body heq
      split at h
      · exact ih _ _ _ h
      · split at h
        · cases h
          exact ⟨_, st, body, heq, Or.inl rfl⟩
        · split at h
          · cases h
            exact ⟨_, st, body, heq, Or.inr rfl⟩
          · exact ih _ _ _ h

theorem tryTimedtextEndpoint_ok_src (fetchO : Fetch) (id : String)
    (pref : Option String) (att att2 : List String) (tr : List Item)
    (h : tryTimedtextEndpoint fetchO id pref att = (att2, .ok tr)) :
    comesFromParser fetchO tr := by
  simp only [tryTimedtextEndpoint] at h
  split at h
  · cases h
  · split at h
    · cases h
    · split at h
      · cases h
      · exact s3FetchLoop_ok_src fetchO id _ _ _ att2 tr h

/-- First-match characterization of `List.find?`. -/
theorem find_eq_get {α : Type} (q : α → Bool) :
    ∀ (ts : List α) (i : ℕ) (hi : i < ts.length),
      q (ts.get ⟨i, hi⟩) → (∀ j (hj : j < i), ¬ q (ts.get ⟨j, hj.trans hi⟩)) →
      ts.find? q = some (ts.get ⟨i, hi⟩) := by
  intro ts
  induction ts with
  | nil =>
    intro i hi
    simp at hi
  | cons a t ih =>
    intro i hi hq hnone
    match i with
    | 0 => exact List.find?_cons_of_pos t hq
    | i' + 1 =>
      have ha : ¬ q a := hnone 0 (Nat.succ_pos i')
      rw [List.find?_cons_of_neg t (by simpa using ha)]
      exact ih i' (Nat.lt_of_succ_lt_succ hi) hq fun j hj =>
        hnone (j + 1) (Nat.succ_lt_succ hj)

/-! ### The Identifier Resolver on the accepted URL shapes -/


theorem takeWhile_all (q : Char → Bool) : ∀ {l : Chars}, (∀ c ∈ l, q c = true) →
    l.takeWhile q = l := by
  intro l
  induction l with
  | nil => intro _; rfl
  | cons a t ih =>
    intro h
    rw [List.takeWhile_cons, if_pos (h a (List.mem_cons_self a t)),
      ih fun c hc => h c (List.mem_cons_of_mem a hc)]

theorem idChar_ne {c x : Char} (h : isIdChar c = true) (hx : isIdChar x = false) :
    c ≠ x := fun he => by subst he; rw [h] at hx; cases hx

theorem idChar_notQueryEnd {c : Char} (h : isIdChar c = true) : notQueryEnd c = true := by
  have h1 : c ≠ '?' := idChar_ne h (by decide)
  have h2 : c ≠ '#' := idChar_ne h (by decide)
  simp [notQueryEnd, h1, h2]

theorem parseURL_shortlink (id : Chars) (hch : ∀ c ∈ id, isIdChar c = true) (hlen : 10 ≤ id.length) :
    parseURL ("https://youtu.be/".data ++ id) = some ⟨"youtu.be".data, '/' :: id, []⟩ := by
  have hq : id.takeWhile notQueryEnd = id :=
    takeWhile_all _ fun c hc => idChar_notQueryEnd (hch c hc)
  unfold parseURL
  rw [show splitFirstSub [':', '/', '/'] ("https://youtu.be/".data ++ id) =
        some ("https".data, "youtu.be/".data ++ id) from rfl]
  dsimp only
  rw [show List.takeWhile notHostEnd (['y', 'o', 'u', 't', 'u', '.', 'b', 'e', '/'] ++ id) =
        ['y', 'o', 'u', 't', 'u', '.', 'b', 'e'] from rfl]
  rw [show List.drop ['y', 'o', 'u', 't', 'u', '.', 'b', 'e'].length
        (['y', 'o', 'u', 't', 'u', '.', 'b', 'e', '/'] ++ id) = '/' :: id from rfl]
  rw [show List.map Char.toLower (List.takeWhile notColon ['y', 'o', 'u', 't', 'u', '.', 'b', 'e']) =
        ['y', 'o', 'u', 't', 'u', '.', 'b', 'e'] from rfl]
  rw [List.takeWhile_cons, show notQueryEnd '/' = true from rfl, if_pos rfl, hq]
  rw [if_neg (by decide), if_neg (by decide), if_neg (by simp), List.drop_length]

theorem idChar_notHash {c : Char} (h : isIdChar c = true) : notHash c = true := by
  have h1 : c ≠ '#' := idChar_ne h (by decide)
  simp [notHash, h1]

theorem takeWhile_append_all (q : Char → Bool) {xs : Chars} (ys : Chars)
    (h : ∀ c ∈ xs, q c = true) :
    (xs ++ ys).takeWhile q = xs ++ ys.takeWhile q := by
  induction xs with
  | nil => rfl
  | cons a t ih =>
    rw [List.cons_append, List.takeWhile_cons, if_pos (h a (List.mem_cons_self a t)),
      ih fun c hc => h c (List.mem_cons_of_mem a hc), List.cons_append]

theorem sfs_single_none {c : Char} : ∀ {l : Chars}, c ∉ l → splitFirstSub [c] l = none := by
  intro l
  induction l with
  | nil => intro _; rfl
  | cons a t ih =>
    intro h
    have hca : ¬ ([c].isPrefixOf (a :: t) = true) := by
      intro hp
      exact h ((List.cons_prefix_cons.mp (pfx_of_isPre hp)).1 ▸ List.mem_cons_self a t)
    rw [show splitFirstSub [c] (a :: t) =
          (if [c].isPrefixOf (a :: t) then some ([], (a :: t).drop 1)
           else (splitFirstSub [c] t).map fun pr => (a :: pr.1, pr.2)) from rfl,
      if_neg hca, ih fun hm => h (List.mem_cons_of_mem a hm)]
    rfl

theorem splitOnSub_no_sep {p l : Chars} (h : splitFirstSub p l = none) :
    splitOnSub p l = [l] := by
  unfold splitOnSub
  cases hl : l.length with
  | zero => rfl
  | succ n => simp [splitOnSubF, h]

theorem sfs_cons (p : Chars) (a : Char) (t : Chars) :
    splitFirstSub p (a :: t) =
      if p.isPrefixOf (a :: t) then some ([], (a :: t).drop p.length)
      else (splitFirstSub p t).map fun pr => (a :: pr.1, pr.2) := rfl

theorem isPre_append (p x : Chars) : p.isPrefixOf (p ++ x) = true :=
  isPre_of_pfx ⟨x, rfl⟩

theorem parseURL_watch (id : Chars) (hch : ∀ c ∈ id, isIdChar c = true) :
    parseURL ("https://www.youtube.com/watch?v=".data ++ id) =
      some ⟨"www.youtube.com".data, "/watch".data, [(['v'], id)]⟩ := by
  have hq : id.takeWhile notHash = id :=
    takeWhile_all _ fun c hc => idChar_notHash (hch c hc)
  have hamp : '&' ∉ 'v' :: '=' :: id := by
    intro hm
    rcases List.mem_cons.mp hm with h1 | h1
    · exact absurd h1 (by decide)
    rcases List.mem_cons.mp h1 with h2 | h2
    · exact absurd h2 (by decide)
    · exact absurd (hch '&' h2) (by decide)
  have hveq : splitFirstSub ['='] ('v' :: '=' :: id) = some (['v'], id) := by
    rw [sfs_cons,
      if_neg (fun h => absurd (List.cons_prefix_cons.mp (pfx_of_isPre h)).1 (by decide)),
      sfs_cons, if_pos (show ['='].isPrefixOf ('=' :: id) = true from isPre_append ['='] id)]
    rfl
  unfold parseURL
  rw [show splitFirstSub [':', '/', '/'] ("https://www.youtube.com/watch?v=".data ++ id) =
        some ("https".data, "www.youtube.com/watch?v=".data ++ id) from rfl]
  dsimp only
  rw [show List.takeWhile notHostEnd
        (['w', 'w', 'w', '.', 'y', 'o', 'u', 't', 'u', 'b', 'e', '.', 'c', 'o', 'm',
          '/', 'w', 'a', 't', 'c', 'h', '?', 'v', '='] ++ id) =
        "www.youtube.com".data from rfl]
  rw [show List.drop ("www.youtube.com".data).length
        (['w', 'w', 'w', '.', 'y', 'o', 'u', 't', 'u', 'b', 'e', '.', 'c', 'o', 'm',
          '/', 'w', 'a', 't', 'c', 'h', '?', 'v', '='] ++ id) =
        ['/', 'w', 'a', 't', 'c', 'h', '?', 'v', '='] ++ id from rfl]
  rw [show List.takeWhile notQueryEnd (['/', 'w', 'a', 't', 'c', 'h', '?', 'v', '='] ++ id) =
        "/watch".data from rfl]
  rw [show List.drop ("/watch".data).length (['/', 'w', 'a', 't', 'c', 'h', '?', 'v', '='] ++ id) =
        '?' :: ('v' :: '=' :: id) from rfl]
  rw [if_neg (by decide), if_neg (by decide)]
  simp only [Option.some.injEq, UrlRec.mk.injEq]
  refine ⟨rfl, by decide, ?_⟩
  show parseQuery (List.takeWhile notHash ('v' :: '=' :: id)) = [(['v'], id)]
  rw [List.takeWhile_cons, if_pos (by decide : notHash 'v' = true),
    List.takeWhile_cons, if_pos (by decide : notHash '=' = true), hq]
  unfold parseQuery
  rw [splitOnSub_no_sep (sfs_single_none hamp)]
  simp only [List.map_cons, List.map_nil, hveq]

theorem parseURL_ytPath (tail : Chars) (htail : ∀ c ∈ tail, notQueryEnd c = true) :
    parseURL ("https://www.youtube.com/".data ++ tail) =
      some ⟨"www.youtube.com".data, '/' :: tail, []⟩ := by
  unfold parseURL
  rw [show splitFirstSub [':', '/', '/'] ("https://www.youtube.com/".data ++ tail) =
        some ("https".data, "www.youtube.com/".data ++ tail) from rfl]
  dsimp only
  rw [show List.takeWhile notHostEnd
        (['w', 'w', 'w', '.', 'y', 'o', 'u', 't', 'u', 'b', 'e', '.', 'c', 'o', 'm', '/'] ++ tail) =
        "www.youtube.com".data from rfl]
  rw [show List.drop ("www.youtube.com".data).length
        (['w', 'w', 'w', '.', 'y', 'o', 'u', 't', 'u', 'b', 'e', '.', 'c', 'o', 'm', '/'] ++ tail) =
        '/' :: tail from rfl]
  rw [show List.map Char.toLower (List.takeWhile notColon
        ['w', 'w', 'w', '.', 'y', 'o', 'u', 't', 'u', 'b', 'e', '.', 'c', 'o', 'm']) =
        "www.youtube.com".data from rfl]
  rw [List.takeWhile_cons, if_pos (by decide : notQueryEnd '/' = true),
    takeWhile_all _ htail]
  rw [if_neg (by decide), if_neg (by decide), if_neg (by simp), List.drop_length]

theorem pathShapeId_pre (id : Chars)
    (hch : ∀ c ∈ id, isIdChar c = true) (hlen : 10 ≤ id.length) :
    pathShapeId (['/', 's', 'h', 'o', 'r', 't', 's', '/'] ++ id) = some id := by
  unfold pathShapeId
  dsimp only
  rw [if_pos (show (['/', 's', 'h', 'o', 'r', 't', 's', '/'] : Chars).isPrefixOf
        (['/', 's', 'h', 'o', 'r', 't', 's', '/'] ++ id) = true from isPre_append _ id)]
  rw [List.drop_left _ id, takeWhile_all _ hch]
  rw [if_pos hlen]

theorem idChar_not_ws {c : Char} (h : isIdChar c = true) : jsWS c = false := by
  rcases hw : jsWS c
  · rfl
  · exfalso
    simp only [jsWS, Bool.or_eq_true, decide_eq_true_eq] at hw
    rcases hw with ((((h1 | h1) | h1) | h1) | h1) | h1 <;>
      (subst h1; exact absurd h (by decide))

theorem dropWhile_all_neg (q : Char → Bool) :
    ∀ {l : Chars}, (∀ c ∈ l, q c = false) → l.dropWhile q = l := by
  intro l
  induction l with
  | nil => intro _; rfl
  | cons a t _ =>
    intro h
    rw [List.dropWhile_cons, if_neg (by simp [h a (List.mem_cons_self a t)])]

theorem trimL_of_all {l : Chars} (h : ∀ c ∈ l, jsWS c = false) : trimL l = l := by
  unfold trimL
  rw [dropWhile_all_neg _ h,
    dropWhile_all_neg _ (fun c hc => h c (List.mem_reverse.mp hc)),
    List.reverse_reverse]

theorem validId_false {l : Chars} {c : Char} (hc : c ∈ l) (hx : isIdChar c = false) :
    validId l = false := by
  unfold validId
  have hall : l.all isIdChar = false := by
    rcases h : l.all isIdChar
    · rfl
    · rw [List.all_eq_true] at h
      rw [h c hc] at hx
      cases hx
  rw [hall, Bool.and_false]

theorem extract_bare {id : Chars} (h : validId id = true) :
    extractVideoIdL id = .ok id := by
  have hch : ∀ c ∈ id, isIdChar c = true :=
    List.all_eq_true.mp (Bool.and_elim_right h)
  unfold extractVideoIdL
  rw [if_pos h, trimL_of_all fun c hc => idChar_not_ws (hch c hc)]

theorem extract_shortlink {id : Chars} (hch : ∀ c ∈ id, isIdChar c = true)
    (hlen : 10 ≤ id.length) :
    extractVideoIdL ("https://youtu.be/".data ++ id) = .ok id := by
  have hv : validId ("https://youtu.be/".data ++ id) = false :=
    validId_false (c := ':') (List.mem_append.mpr (Or.inl (by decide))) (by decide)
  rw [extractVideoIdL]
  rw [if_neg (by rw [hv]; simp), parseURL_shortlink id hch hlen]
  dsimp only
  rw [if_pos (by decide : containsSub ['y', 'o', 'u', 't', 'u', '.', 'b', 'e']
        "youtu.be".data = true)]
  rfl

theorem extract_watch {id : Chars} (hch : ∀ c ∈ id, isIdChar c = true)
    (hlen : 10 ≤ id.length) :
    extractVideoIdL ("https://www.youtube.com/watch?v=".data ++ id) = .ok id := by
  have hv : validId ("https://www.youtube.com/watch?v=".data ++ id) = false :=
    validId_false (c := ':') (List.mem_append.mpr (Or.inl (by decide))) (by decide)
  have hne : ¬ id = [] := by
    intro h
    subst h
    simp at hlen
  rw [extractVideoIdL]
  rw [if_neg (by rw [hv]; simp), parseURL_watch id hch]
  dsimp only
  rw [if_neg (by decide), if_pos (by decide : containsSub
        ['y', 'o', 'u', 't', 'u', 'b', 'e', '.', 'c', 'o', 'm'] "www.youtube.com".data = true)]
  rw [show getParam [(['v'], id)] ['v'] = some id from rfl]
  dsimp only
  rw [if_pos hne]

theorem extract_shorts {id : Chars} (hch : ∀ c ∈ id, isIdChar c = true)
    (hlen : 10 ≤ id.length) :
    extractVideoIdL ("https://www.youtube.com/shorts/".data ++ id) = .ok id := by
  have hv : validId ("https://www.youtube.com/shorts/".data ++ id) = false :=
    validId_false (c := ':') (List.mem_append.mpr (Or.inl (by decide))) (by decide)
  have htail : ∀ c ∈ "shorts/".data ++ id, notQueryEnd c = true := by
    intro c hc
    rcases List.mem_append.mp hc with h1 | h1
    · fin_cases h1 <;> decide
    · exact idChar_notQueryEnd (hch c h1)
  rw [extractVideoIdL]
  rw [if_neg (by rw [hv]; simp)]
  rw [show "https://www.youtube.com/shorts/".data ++ id =
        "https://www.youtube.com/".data ++ ("shorts/".data ++ id) from rfl]
  rw [parseURL_ytPath _ htail]
  dsimp only
  rw [if_neg (by decide), if_pos (by decide : containsSub
        ['y', 'o', 'u', 't', 'u', 'b', 'e', '.', 'c', 'o', 'm'] "www.youtube.com".data = true)]
  rw [show getParam ([] : List (Chars × Chars)) ['v'] = none from rfl]
  dsimp only
  rw [show ('/' :: ("shorts/".data ++ id)) = ['/', 's', 'h', 'o', 'r', 't', 's', '/'] ++ id
        from rfl]
  rw [pathShapeId_pre id hch hlen]

theorem pathShapeId_live (id : Chars)
    (hch : ∀ c ∈ id, isIdChar c = true) (hlen : 10 ≤ id.length) :
    pathShapeId (['/', 'l', 'i', 'v', 'e', '/'] ++ id) = some id := by
  unfold pathShapeId
  dsimp only
  rw [show (['/', 's', 'h', 'o', 'r', 't', 's', '/'] : Chars).isPrefixOf
        (['/', 'l', 'i', 'v', 'e', '/'] ++ id) = false from rfl]
  rw [if_neg (by simp)]
  rw [if_pos (show (['/', 'l', 'i', 'v', 'e', '/'] : Chars).isPrefixOf
        (['/', 'l', 'i', 'v', 'e', '/'] ++ id) = true from isPre_append _ id)]
  rw [List.drop_left _ id, takeWhile_all _ hch]
  rw [if_pos hlen]

theorem pathShapeId_embed (id : Chars)
    (hch : ∀ c ∈ id, isIdChar c = true) (hlen : 10 ≤ id.length) :
    pathShapeId (['/', 'e', 'm', 'b', 'e', 'd', '/'] ++ id) = some id := by
  unfold pathShapeId
  dsimp only
  rw [show (['/', 's', 'h', 'o', 'r', 't', 's', '/'] : Chars).isPrefixOf
        (['/', 'e', 'm', 'b', 'e', 'd', '/'] ++ id) = false from rfl]
  rw [if_neg (by simp)]
  rw [show (['/', 'l', 'i', 'v', 'e', '/'] : Chars).isPrefixOf
        (['/', 'e', 'm', 'b', 'e', 'd', '/'] ++ id) = false from rfl]
  rw [if_neg (by simp)]
  rw [if_pos (show (['/', 'e', 'm', 'b', 'e', 'd', '/'] : Chars).isPrefixOf
        (['/', 'e', 'm', 'b', 'e', 'd', '/'] ++ id) = true from isPre_append _ id)]
  rw [List.drop_left _ id, takeWhile_all _ hch]
  rw [if_pos hlen]

theorem extract_live {id : Chars} (hch : ∀ c ∈ id, isIdChar c = true)
    (hlen : 10 ≤ id.length) :
    extractVideoIdL ("https://www.youtube.com/live/".data ++ id) = .ok id := by
  have hv : validId ("https://www.youtube.com/live/".data ++ id) = false :=
    validId_false (c := ':') (List.mem_append.mpr (Or.inl (by decide))) (by decide)
  have htail : ∀ c ∈ "live/".data ++ id, notQueryEnd c = true := by
    intro c hc
    rcases List.mem_append.mp hc with h1 | h1
    · fin_cases h1 <;> decide
    · exact idChar_notQueryEnd (hch c h1)
  rw [extractVideoIdL]
  rw [if_neg (by rw [hv]; simp)]
  rw [show "https://www.youtube.com/live/".data ++ id =
        "https://www.youtube.com/".data ++ ("live/".data ++ id) from rfl]
  rw [parseURL_ytPath _ htail]
  dsimp only
  rw [if_neg (by decide), if_pos (by decide : containsSub
        ['y', 'o', 'u', 't', 'u', 'b', 'e', '.', 'c', 'o', 'm'] "www.youtube.com".data = true)]
  rw [show getParam ([] : List (Chars × Chars)) ['v'] = none from rfl]
  dsimp only
  rw [show ('/' :: ("live/".data ++ id)) = ['/', 'l', 'i', 'v', 'e', '/'] ++ id from rfl]
  rw [pathShapeId_live id hch hlen]

theorem extract_embed {id : Chars} (hch : ∀ c ∈ id, isIdChar c = true)
    (hlen : 10 ≤ id.length) :
    extractVideoIdL ("https://www.youtube.com/embed/".data ++ id) = .ok id := by
  have hv : validId ("https://www.youtube.com/embed/".data ++ id) = false :=
    validId_false (c := ':') (List.mem_append.mpr (Or.inl (by decide))) (by decide)
  have htail : ∀ c ∈ "embed/".data ++ id, notQueryEnd c = true := by
    intro c hc
    rcases List.mem_append.mp hc with h1 | h1
    · fin_cases h1 <;> decide
    · exact idChar_notQueryEnd (hch c h1)
  rw [extractVideoIdL]
  rw [if_neg (by rw [hv]; simp)]
  rw [show "https://www.youtube.com/embed/".data ++ id =
        "https://www.youtube.com/".data ++ ("embed/".data ++ id) from rfl]
  rw [parseURL_ytPath _ htail]
  dsimp only
  rw [if_neg (by decide), if_pos (by decide : containsSub
        ['y', 'o', 'u', 't', 'u', 'b', 'e', '.', 'c', 'o', 'm'] "www.youtube.com".data = true)]
  rw [show getParam ([] : List (Chars × Chars)) ['v'] = none from rfl]
  dsimp only
  rw [show ('/' :: ("embed/".data ++ id)) = ['/', 'e', 'm', 'b', 'e', 'd', '/'] ++ id from rfl]
  rw [pathShapeId_embed id hch hlen]

theorem extract_ok_inv {s r : Chars} (h : extractVideoIdL s = .ok r) :
    (validId s = true ∧ r = trimL s) ∨
    (∃ u, parseURL s = some u ∧
      ((containsSub "youtu.be".data u.host = true ∧ r = u.path.drop 1) ∨
       (containsSub "youtu.be".data u.host = false ∧
        containsSub "youtube.com".data u.host = true ∧
        ((∃ v, getParam u.query ['v'] = some v ∧ ¬ v = [] ∧ r = v) ∨
         ((getParam u.query ['v'] = none ∨ getParam u.query ['v'] = some []) ∧
          pathShapeId u.path = some r))))) := by
  unfold extractVideoIdL at h
  split at h
  · rename_i hvalid
    cases h
    exact Or.inl ⟨hvalid, rfl⟩
  · rename_i hvalid
    split at h
    · rename_i u hu
      split at h
      · rename_i hbe
        cases h
        exact Or.inr ⟨u, hu, Or.inl ⟨hbe, rfl⟩⟩
      · rename_i hbe
        split at h
        · rename_i hcom
          split at h
          next hv =>
            split at h
            · rename_i hvne
              cases h
              exact Or.inr ⟨u, hu, Or.inr ⟨Bool.eq_false_iff.mpr hbe, hcom,
                Or.inl ⟨_, hv, hvne, rfl⟩⟩⟩
            · rename_i hvne
              split at h
              next rr hps =>
                cases h
                exact Or.inr ⟨u, hu, Or.inr ⟨Bool.eq_false_iff.mpr hbe, hcom,
                  Or.inr ⟨Or.inr ((not_not.mp hvne) ▸ hv), hps⟩⟩⟩
              next => cases h
          next hv =>
            split at h
            next rr hps =>
              cases h
              exact Or.inr ⟨u, hu, Or.inr ⟨Bool.eq_false_iff.mpr hbe, hcom,
                Or.inr ⟨Or.inl hv, hps⟩⟩⟩
            next => cases h
        · cases h
    · cases h

/-! ### Success payloads always carry a non-empty sequence -/

theorem handler_ok_ne (ftr : FetchTr) (ginfo : GetInfo) (fetchO : Fetch)
    (url : String) (lang : Option String) (p : SuccessPayload)
    (h : handler ftr ginfo fetchO url lang = .ok p) : p.segments ≠ [] := by
  unfold handler at h
  split at h
  · cases h
  · split at h
    · rename_i heq
      cases h
      exact s1Loop_ok_ne _ _ _ 0 none [] _ _ heq
    · split at h
      · rename_i heq
        cases h
        exact tryYtdl_ok_ne _ _ _ _ _ _ _ heq
      · split at h
        · rename_i heq
          cases h
          exact tryTimedtextEndpoint_ok_ne _ _ _ _ _ _ heq
        · cases h

/-! ### The claims -/

/-- C1: the claim states that in every subtitle block rendered by `toSrt`
the end timestamp equals `offsetMs + durationMs`.  The code computes
`end = offset/1000 + duration`, adding the millisecond duration to a
second count, so the single segment `{ text := "Hello", offset := 1000,
duration := 1500 }` renders with end timestamp `00:25:01,000` (1501 s)
instead of the `00:00:02,500` the claim requires. -/
theorem C1_toSrt_end_timestamp :
    toSrt [⟨"Hello", 1000, 1500⟩] = "1\n00:00:01,000 --> 00:25:01,000\nHello\n" ∧
    toSrt [⟨"Hello", 1000, 1500⟩] ≠ "1\n00:00:01,000 --> 00:00:02,500\nHello\n" := by
  constructor
  · decide
  · decide

/-- C4 (counterexample): the claim promises that an input containing
`&amp;` always yields `&` in the decoded output; the sequential
replacement double-decodes `&amp;lt;` to `<`, whose output contains no
`&` at all. -/
theorem C4_counterexample :
    decodeHtml "&amp;lt;" = "<" ∧ '&' ∉ (decodeHtml "&amp;lt;").data := by
  constructor
  · decide
  · decide

/-- C4 (amended): `decodeHtml` decodes the five standard entities and
numeric character references; for every input containing `&lt;`, `&gt;`,
`&quot;`, `&#39;` or a numeric reference `&#n;`, the output contains the
corresponding decoded character.  The same guarantee for `&amp;` fails by
double decoding (see the counterexample) and is dropped. -/
theorem C4_amended :
    (∀ s : String, pLt <:+: s.data → '<' ∈ (decodeHtml s).data) ∧
    (∀ s : String, pGt <:+: s.data → '>' ∈ (decodeHtml s).data) ∧
    (∀ s : String, pQuot <:+: s.data → '"' ∈ (decodeHtml s).data) ∧
    (∀ s : String, pApos <:+: s.data → '\'' ∈ (decodeHtml s).data) ∧
    (∀ (s : String) (ds : Chars), ds ≠ [] → (∀ c ∈ ds, c.isDigit) →
      numPat ds <:+: s.data → numRefChar ds ∈ (decodeHtml s).data) :=
  ⟨decode_lt_mem, decode_gt_mem, decode_quot_mem, decode_apos_mem,
    fun s ds hne hd h => decode_numref_mem s ds hne hd h⟩

/-- C4 (witness): the amended guarantees evaluated on concrete inputs. -/
theorem C4_amended_witness :
    '<' ∈ (decodeHtml "a&lt;b").data ∧
    numRefChar ['6', '5'] ∈ (decodeHtml "x&#65;y").data :=
  ⟨C4_amended.1 "a&lt;b" (by decide),
    C4_amended.2.2.2.2 "x&#65;y" ['6', '5'] (by decide) (by decide) (by decide)⟩

/-- C5: no strategy ever returns an empty caption sequence as a success —
each of the three strategies either throws or returns at least one
segment, for every upstream behaviour, and consequently the segments
field of every success payload is non-empty. -/
theorem C5_strategies_never_return_empty :
    (∀ (ftr : FetchTr) (id : String) (pref : Option String)
      (att att2 : List String) (tr : List Item),
      tryYoutubeTranscript ftr id pref att = (att2, .ok tr) → tr ≠ []) ∧
    (∀ (ginfo : GetInfo) (fetchO : Fetch) (id : String) (pref : Option String)
      (att att2 : List String) (tr : List Item),
      tryYtdl ginfo fetchO id pref att = (att2, .ok tr) → tr ≠ []) ∧
    (∀ (fetchO : Fetch) (id : String) (pref : Option String)
      (att att2 : List String) (tr : List Item),
      tryTimedtextEndpoint fetchO id pref att = (att2, .ok tr) → tr ≠ []) ∧
    (∀ (ftr : FetchTr) (ginfo : GetInfo) (fetchO : Fetch) (url : String)
      (lang : Option String) (p : SuccessPayload),
      handler ftr ginfo fetchO url lang = .ok p → p.segments ≠ []) :=
  ⟨fun ftr id pref att att2 tr h => s1Loop_ok_ne ftr id (s1Options pref) 0 none att att2 tr h,
    fun ginfo fetchO id pref att att2 tr h => tryYtdl_ok_ne ginfo fetchO id pref att att2 tr h,
    fun fetchO id pref att att2 tr h => tryTimedtextEndpoint_ok_ne fetchO id pref att att2 tr h,
    fun ftr ginfo fetchO url lang p h => handler_ok_ne ftr ginfo fetchO url lang p h⟩

/-- C5 (witness): the strategy-level guarantee applied to a concrete
successful run. -/
theorem C5_witness : ([⟨"B", 5000, 1000⟩] : List Item) ≠ [] :=
  C5_strategies_never_return_empty.1 demoFetchTrOk "dQw4w9WgXcQ" none []
    ["ytTranscript:any"] [⟨"B", 5000, 1000⟩] (by decide)

/-- C8: the WebVTT parser maps the minimal fixture
`WEBVTT\n\n00:00:01.000 --> 00:00:02.500\nHello <b>world</b>\n` to exactly
one segment with text `"Hello world"`, offset 1000 ms and duration
1500 ms. -/
theorem C8_vtt_fixture :
    parseVtt "WEBVTT\n\n00:00:01.000 --> 00:00:02.500\nHello <b>world</b>\n" =
      [⟨"Hello world", 1000, 1500⟩] := by
  decide

/-- C2 (counterexample): the claim says a failing request's 400 response
body includes both the final error message and the tried-order list.  In
the run below all three strategies fail; the accumulated attempts list
has nine labels, yet the response is `.err` with only the last message,
and that message does not even mention the first attempt label. -/
theorem C2_counterexample :
    handler demoFetchTrFail cxGInfoFail cxFetch404 "https://youtu.be/dQw4w9WgXcQ" none =
      .err "No tracks in timedtext list." ∧
    (tryTimedtextEndpoint cxFetch404 "dQw4w9WgXcQ" none
        (tryYtdl cxGInfoFail cxFetch404 "dQw4w9WgXcQ" none
          (tryYoutubeTranscript demoFetchTrFail "dQw4w9WgXcQ" none []).1).1).1 =
      ["ytTranscript:any", "ytTranscript:lang=en", "ytTranscript:lang=en-US",
        "ytTranscript:lang=en-GB", "ytdl:info", "timedtext:list base",
        "timedtext:list asr", "timedtext:list base+hl", "timedtext:list asr+hl"] ∧
    containsSub "ytTranscript".data "No tracks in timedtext list.".data = false := by
  refine ⟨by decide, by decide, by decide⟩

/-- C2 (amended): when the identifier resolves and all three strategies
fail, the handler returns a 400 `{ error }` body whose message is the
last strategy's error message (or the fixed fallback when that message is
empty); the tried-order list is carried only by success payloads. -/
theorem C2_amended (ftr : FetchTr) (ginfo : GetInfo) (fetchO : Fetch)
    (url id : String) (lang : Option String) (e1 e2 e3 : String)
    (a1 a2 a3 : List String)
    (hid : extractVideoId url = .ok id)
    (h1 : tryYoutubeTranscript ftr id lang [] = (a1, .error e1))
    (h2 : tryYtdl ginfo fetchO id lang a1 = (a2, .error e2))
    (h3 : tryTimedtextEndpoint fetchO id lang a2 = (a3, .error e3)) :
    handler ftr ginfo fetchO url lang =
      .err (if e3 = "" then "Failed to fetch transcript." else e3) := by
  simp only [handler, hid, h1, h2, h3]

/-- C2 (witness): the amended statement on the concrete failing run. -/
theorem C2_amended_witness :
    handler demoFetchTrFail cxGInfoFail cxFetch404 "https://youtu.be/dQw4w9WgXcQ" none =
      .err "No tracks in timedtext list." := by
  have h := C2_amended demoFetchTrFail cxGInfoFail cxFetch404
    "https://youtu.be/dQw4w9WgXcQ" "dQw4w9WgXcQ" none "boom" "info down"
    "No tracks in timedtext list."
    ["ytTranscript:any", "ytTranscript:lang=en", "ytTranscript:lang=en-US",
      "ytTranscript:lang=en-GB"]
    ["ytTranscript:any", "ytTranscript:lang=en", "ytTranscript:lang=en-US",
      "ytTranscript:lang=en-GB", "ytdl:info"]
    ["ytTranscript:any", "ytTranscript:lang=en", "ytTranscript:lang=en-US",
      "ytTranscript:lang=en-GB", "ytdl:info", "timedtext:list base",
      "timedtext:list asr", "timedtext:list base+hl", "timedtext:list asr+hl"]
    (by decide) (by decide) (by decide) (by decide)
  rw [if_neg (by decide)] at h
  exact h

/-- Lifting a char-level resolver run to the `String` wrapper. -/
theorem extract_String {l r : Chars} (h : extractVideoIdL l = .ok r) :
    extractVideoId (String.mk l) = .ok (String.mk r) := by
  show (extractVideoIdL (String.mk l).data).map String.mk = .ok (String.mk r)
  rw [show (String.mk l).data = l from rfl, h]
  rfl

/-- C3 (counterexample): the claim says every returned identifier matches
`[A-Za-z0-9_-]{10,}`; but the short-link path segment is returned without
any validation, so `https://youtu.be/abc` yields `abc`, which fails the
pattern. -/
theorem C3_counterexample :
    extractVideoId "https://youtu.be/abc" = .ok "abc" ∧
    validId "abc".data = false := by
  refine ⟨by decide, by decide⟩

/-- C3 (amended): on every identifier matching `[A-Za-z0-9_-]{10,}` each
of the six accepted input shapes (bare token, `youtu.be` short link,
`watch?v=`, `/shorts/`, `/live/`, `/embed/`) resolves to exactly that
identifier; and conversely every successful resolution comes from one of
the code's branches: a trimmed bare token, a `youtu.be` path, a non-empty
`v` parameter, or a `/shorts|live|embed/` path segment of a
`youtube.com` URL — without any guarantee on the returned characters in
the URL branches. -/
theorem C3_amended :
    (∀ id : Chars, 10 ≤ id.length → (∀ c ∈ id, isIdChar c = true) →
      (extractVideoId (String.mk id) = .ok (String.mk id) ∧
       extractVideoId (String.mk ("https://youtu.be/".data ++ id)) = .ok (String.mk id) ∧
       extractVideoId (String.mk ("https://www.youtube.com/watch?v=".data ++ id)) =
         .ok (String.mk id) ∧
       extractVideoId (String.mk ("https://www.youtube.com/shorts/".data ++ id)) =
         .ok (String.mk id) ∧
       extractVideoId (String.mk ("https://www.youtube.com/live/".data ++ id)) =
         .ok (String.mk id) ∧
       extractVideoId (String.mk ("https://www.youtube.com/embed/".data ++ id)) =
         .ok (String.mk id))) ∧
    (∀ s r : Chars, extractVideoIdL s = .ok r →
      (validId s = true ∧ r = trimL s) ∨
      (∃ u, parseURL s = some u ∧
        ((containsSub "youtu.be".data u.host = true ∧ r = u.path.drop 1) ∨
         (containsSub "youtu.be".data u.host = false ∧
          containsSub "youtube.com".data u.host = true ∧
          ((∃ v, getParam u.query ['v'] = some v ∧ ¬ v = [] ∧ r = v) ∨
           ((getParam u.query ['v'] = none ∨ getParam u.query ['v'] = some []) ∧
            pathShapeId u.path = some r)))))) := by
  refine ⟨fun id hlen hch => ?_, fun s r h => extract_ok_inv h⟩
  have h1 : id.all isIdChar = true := List.all_eq_true.mpr hch
  have h2 : decide (id.length ≥ 10) = true := decide_eq_true hlen
  have hv : validId id = true := by
    unfold validId
    rw [h1, h2]
    rfl
  exact ⟨extract_String (extract_bare hv), extract_String (extract_shortlink hch hlen),
    extract_String (extract_watch hch hlen), extract_String (extract_shorts hch hlen),
    extract_String (extract_live hch hlen), extract_String (extract_embed hch hlen)⟩

/-- C3 (witness): the amended guarantees on a concrete 11-character
identifier. -/
theorem C3_amended_witness :
    extractVideoId (String.mk "dQw4w9WgXcQ".data) = .ok (String.mk "dQw4w9WgXcQ".data) ∧
    extractVideoId (String.mk ("https://youtu.be/".data ++ "dQw4w9WgXcQ".data)) =
      .ok (String.mk "dQw4w9WgXcQ".data) ∧
    extractVideoId (String.mk ("https://www.youtube.com/watch?v=".data ++ "dQw4w9WgXcQ".data)) =
      .ok (String.mk "dQw4w9WgXcQ".data) ∧
    extractVideoId (String.mk ("https://www.youtube.com/shorts/".data ++ "dQw4w9WgXcQ".data)) =
      .ok (String.mk "dQw4w9WgXcQ".data) ∧
    extractVideoId (String.mk ("https://www.youtube.com/live/".data ++ "dQw4w9WgXcQ".data)) =
      .ok (String.mk "dQw4w9WgXcQ".data) ∧
    extractVideoId (String.mk ("https://www.youtube.com/embed/".data ++ "dQw4w9WgXcQ".data)) =
      .ok (String.mk "dQw4w9WgXcQ".data) :=
  C3_amended.1 "dQw4w9WgXcQ".data (by decide) (by decide)

/-- C6 (counterexample): the claim says success payload segments are in
chronological order; the parsers keep payload order and never sort, so an
out-of-order WebVTT body flows through Strategy 2 into a success payload
whose segments are not chronological. -/
theorem C6_counterexample :
    handler demoFetchTrFail demoGInfo demoFetch "https://youtu.be/dQw4w9WgXcQ" none =
      .ok ⟨"dQw4w9WgXcQ",
        ["ytTranscript:any", "ytTranscript:lang=en", "ytTranscript:lang=en-US",
          "ytTranscript:lang=en-GB", "ytdl:info", "ytdl:track=en", "ytdl:get=base"],
        [⟨"B", 5000, 1000⟩, ⟨"A", 1000, 1000⟩], "B\nA",
        "1\n00:00:05,000 --> 00:16:45,000\nB\n\n2\n00:00:01,000 --> 00:16:41,000\nA\n"⟩ ∧
    ¬ chronological [⟨"B", 5000, 1000⟩, ⟨"A", 1000, 1000⟩] := by
  refine ⟨by decide, fun h => ?_⟩
  have h2 : List.Chain' (fun a b => a.offset ≤ b.offset)
      [(⟨"B", 5000, 1000⟩ : Item), ⟨"A", 1000, 1000⟩] := h
  exact absurd (List.chain'_cons.mp h2).1 (by decide)

/-- C6 (amended): success payloads always carry at least one segment, and
segments produced by Strategies 2 and 3 are exactly the parse of a body
returned by the fetch oracle, in payload order — no reordering is
applied. -/
theorem C6_amended :
    (∀ (ftr : FetchTr) (ginfo : GetInfo) (fetchO : Fetch) (url : String)
      (lang : Option String) (p : SuccessPayload),
      handler ftr ginfo fetchO url lang = .ok p → p.segments ≠ []) ∧
    (∀ (ginfo : GetInfo) (fetchO : Fetch) (id : String) (pref : Option String)
      (att att2 : List String) (tr : List Item),
      tryYtdl ginfo fetchO id pref att = (att2, .ok tr) → comesFromParser fetchO tr) ∧
    (∀ (fetchO : Fetch) (id : String) (pref : Option String)
      (att att2 : List String) (tr : List Item),
      tryTimedtextEndpoint fetchO id pref att = (att2, .ok tr) → comesFromParser fetchO tr) :=
  ⟨handler_ok_ne, tryYtdl_ok_src, tryTimedtextEndpoint_ok_src⟩

/-- C6 (witness): the amended guarantees on the concrete Strategy 2
run. -/
theorem C6_amended_witness :
    ([⟨"B", 5000, 1000⟩, ⟨"A", 1000, 1000⟩] : List Item) ≠ [] ∧
    comesFromParser demoFetch [⟨"B", 5000, 1000⟩, ⟨"A", 1000, 1000⟩] :=
  ⟨C6_amended.1 demoFetchTrFail demoGInfo demoFetch "https://youtu.be/dQw4w9WgXcQ" none
      ⟨"dQw4w9WgXcQ",
        ["ytTranscript:any", "ytTranscript:lang=en", "ytTranscript:lang=en-US",
          "ytTranscript:lang=en-GB", "ytdl:info", "ytdl:track=en", "ytdl:get=base"],
        [⟨"B", 5000, 1000⟩, ⟨"A", 1000, 1000⟩], "B\nA",
        "1\n00:00:05,000 --> 00:16:45,000\nB\n\n2\n00:00:01,000 --> 00:16:41,000\nA\n"⟩
      (by decide),
    C6_amended.2.1 demoGInfo demoFetch "dQw4w9WgXcQ" none []
      ["ytdl:info", "ytdl:track=en", "ytdl:get=base"]
      [⟨"B", 5000, 1000⟩, ⟨"A", 1000, 1000⟩] (by decide)⟩

/-- C7: Strategy 1 walks its language options in order — no preference,
the preferred language, then `en`, `en-US`, `en-GB` — and returns the
first attempt that yields a non-empty cue list, logging exactly the
options attempted so far; the handler then renders that result without
consulting the remaining strategies. -/
theorem C7_strategy1_order (ftr : FetchTr) (ginfo : GetInfo) (fetchO : Fetch)
    (url id : String) (pref : Option String) (k : ℕ) (tr : List Item)
    (hk : k < (s1Options pref).length)
    (hid : extractVideoId url = .ok id)
    (hfail : ∀ i (hi : i < k), failOrEmpty (ftr id i ((s1Options pref).get ⟨i, hi.trans hk⟩)))
    (hsucc : ftr id k ((s1Options pref).get ⟨k, hk⟩) = .ok tr)
    (htr : tr ≠ []) :
    tryYoutubeTranscript ftr id pref [] =
      (((s1Options pref).take (k + 1)).map s1Label, .ok tr) ∧
    handler ftr ginfo fetchO url pref =
      .ok ⟨id, ((s1Options pref).take (k + 1)).map s1Label, tr, toPlainText tr, toSrt tr⟩ := by
  have hfail2 : ∀ i (hi : i < k),
      failOrEmpty (ftr id (0 + i) ((s1Options pref).get ⟨i, hi.trans hk⟩)) := by
    intro i hi
    rw [Nat.zero_add]
    exact hfail i hi
  have hsucc2 : ftr id (0 + k) ((s1Options pref).get ⟨k, hk⟩) = .ok tr := by
    rw [Nat.zero_add]
    exact hsucc
  have h1 : tryYoutubeTranscript ftr id pref [] =
      (((s1Options pref).take (k + 1)).map s1Label, .ok tr) := by
    have h0 := s1Loop_succeeds ftr id (s1Options pref) 0 none [] k hk tr hfail2 hsucc2 htr
    simpa [tryYoutubeTranscript] using h0
  refine ⟨h1, ?_⟩
  simp only [handler, hid, h1]

/-- C7 (witness): with preferred language `de` and an oracle that fails
twice and succeeds on the third call, the third option `en` wins and the
log stops there. -/
theorem C7_witness :
    tryYoutubeTranscript demoFetchTrThird "dQw4w9WgXcQ" (some "de") [] =
      (["ytTranscript:any", "ytTranscript:lang=de", "ytTranscript:lang=en"],
        .ok [⟨"B", 5000, 1000⟩]) ∧
    handler demoFetchTrThird demoGInfo demoFetch "https://youtu.be/dQw4w9WgXcQ" (some "de") =
      .ok ⟨"dQw4w9WgXcQ",
        ["ytTranscript:any", "ytTranscript:lang=de", "ytTranscript:lang=en"],
        [⟨"B", 5000, 1000⟩], "B", "1\n00:00:05,000 --> 00:16:45,000\nB\n"⟩ :=
  C7_strategy1_order demoFetchTrThird demoGInfo demoFetch "https://youtu.be/dQw4w9WgXcQ"
    "dQw4w9WgXcQ" (some "de") 2 [⟨"B", 5000, 1000⟩] (by decide) (by decide) (by decide)
    (by decide) (by decide)

/-- C9: track selection in Strategies 2 and 3 follows the order: with a
non-empty preferred language, the first track whose code
case-insensitively starts with it; otherwise the first track whose code
starts with `en`; otherwise the first track of the list. -/
theorem C9_track_selection :
    (∀ {α : Type} (code : α → String) (p : String) (ts : List α) (i : ℕ) (hi : i < ts.length),
      ¬ p = "" →
      startsWithS (lowerS (code (ts.get ⟨i, hi⟩))) (lowerS p) = true →
      (∀ j (hj : j < i), startsWithS (lowerS (code (ts.get ⟨j, hj.trans hi⟩))) (lowerS p) = false) →
      chooseBy code (some p) ts = some (ts.get ⟨i, hi⟩)) ∧
    (∀ {α : Type} (code : α → String) (p : String) (ts : List α) (i : ℕ) (hi : i < ts.length),
      ¬ p = "" →
      (∀ t ∈ ts, startsWithS (lowerS (code t)) (lowerS p) = false) →
      startsWithS (lowerS (code (ts.get ⟨i, hi⟩))) "en" = true →
      (∀ j (hj : j < i), startsWithS (lowerS (code (ts.get ⟨j, hj.trans hi⟩))) "en" = false) →
      chooseBy code (some p) ts = some (ts.get ⟨i, hi⟩)) ∧
    (∀ {α : Type} (code : α → String) (p : String) (ts : List α),
      ¬ p = "" →
      (∀ t ∈ ts, startsWithS (lowerS (code t)) (lowerS p) = false) →
      (∀ t ∈ ts, startsWithS (lowerS (code t)) "en" = false) →
      chooseBy code (some p) ts = ts.head?) := by
  refine ⟨?_, ?_, ?_⟩
  · intro α code p ts i hi hp hq hnone
    have hfind := find_eq_get (fun t => startsWithS (lowerS (code t)) (lowerS p)) ts i hi hq
      (fun j hj => by simpa using hnone j hj)
    simp only [chooseBy]
    rw [if_neg hp, hfind]
    rfl
  · intro α code p ts i hi hp hnop hq hnone
    have h1 : (ts.find? fun t => startsWithS (lowerS (code t)) (lowerS p)) = none :=
      List.find?_eq_none.mpr fun x hx => by simp [hnop x hx]
    have h2 := find_eq_get (fun t => startsWithS (lowerS (code t)) "en") ts i hi hq
      (fun j hj => by simpa using hnone j hj)
    simp only [chooseBy]
    rw [if_neg hp, h1]
    simp only [h2]
    rfl
  · intro α code p ts hp hnop hnoe
    have h1 : (ts.find? fun t => startsWithS (lowerS (code t)) (lowerS p)) = none :=
      List.find?_eq_none.mpr fun x hx => by simp [hnop x hx]
    have h2 : (ts.find? fun t => startsWithS (lowerS (code t)) "en") = none :=
      List.find?_eq_none.mpr fun x hx => by simp [hnoe x hx]
    simp only [chooseBy]
    rw [if_neg hp, h1]
    simp only [h2]
    rfl

/-- C9 (witness): with preference `en` and tracks `en-US`, `en-GB`, `fr`,
the first prefix match `en-US` is chosen. -/
theorem C9_witness :
    chooseBy Track.languageCode (some "en") demoTracks = some ⟨"en-US", "", ""⟩ :=
  C9_track_selection.1 Track.languageCode "en" demoTracks 0 (by decide) (by decide)
    (by decide) (fun j hj => absurd hj (Nat.not_lt_zero j))

/-- C10: a preferred language equal to one of the built-in fallbacks
`en`, `en-US`, `en-GB` appears twice in Strategy 1's option list, so when
every attempt throws, the logged attempt list records that option's label
twice — the loop makes the duplicate call instead of deduplicating. -/
theorem C10_duplicate_language (ftr : FetchTr) (id l e : String)
    (hl : l = "en" ∨ l = "en-US" ∨ l = "en-GB")
    (hall : ∀ i o, ftr id i o = .error e) :
    (s1Options (some l)).count (some l) = 2 ∧
    tryYoutubeTranscript ftr id (some l) [] =
      ((s1Options (some l)).map s1Label, .error e) ∧
    ((s1Options (some l)).map s1Label).count (s1Label (some l)) = 2 := by
  have hne : s1Options (some l) ≠ [] := by simp [s1Options]
  have h2 := s1Loop_all_err ftr id e hall (s1Options (some l)) 0 [] hne none
  refine ⟨?_, ?_, ?_⟩
  · rcases hl with h | h | h <;> subst h <;> decide
  · simpa [tryYoutubeTranscript] using h2
  · rcases hl with h | h | h <;> subst h <;> decide

/-- C10 (witness): with preference `en` and an always-throwing oracle,
`ytTranscript:lang=en` is logged twice. -/
theorem C10_witness :
    tryYoutubeTranscript demoFetchTrFail "dQw4w9WgXcQ" (some "en") [] =
      (["ytTranscript:any", "ytTranscript:lang=en", "ytTranscript:lang=en",
        "ytTranscript:lang=en-US", "ytTranscript:lang=en-GB"], .error "boom") ∧
    (["ytTranscript:any", "ytTranscript:lang=en", "ytTranscript:lang=en",
      "ytTranscript:lang=en-US", "ytTranscript:lang=en-GB"].count "ytTranscript:lang=en") = 2 :=
  ⟨(C10_duplicate_language demoFetchTrFail "dQw4w9WgXcQ" "en" "boom" (Or.inl rfl)
      (fun _ _ => rfl)).2.1,
    (C10_duplicate_language demoFetchTrFail "dQw4w9WgXcQ" "en" "boom" (Or.inl rfl)
      (fun _ _ => rfl)).2.2⟩

end FacTube
